import Mathlib

/-!
# Verification of the CodeGuardian repository-review core

A shallow embedding of the repository's core logic:

* `buildFileTree` / `sortNodes` (App.tsx): turning a flat list of GitHub
  file descriptors into a sorted hierarchical tree;
* `collectFiles`, the extension filter and the batch loop of
  `handleAnalyzeRepo` (App.tsx);
* `handleFileSelect` (App.tsx) and `reviewCode` (geminiService.ts);
* the pure selection/ordering part of `getRepoTree` (githubService.ts).

Strings are modelled as `List Char`; JavaScript's `split`/`join` and
`substring(lastIndexOf('.'))` idioms are modelled by explicit recursive
functions.  `localeCompare` is modelled as code-point lexicographic
comparison, and JavaScript's stable `Array.prototype.sort` as stable
insertion sort.  Network gateways (GitHub content API, Gemini) are
modelled as explicit oracles; the orchestration functions additionally
return the number of calls made to each gateway.
-/

/-- The `'tree' | 'blob'` union from `types.ts`. -/
inductive NodeKind where
  | tree
  | blob
deriving DecidableEq

/-- `GitHubFile` from `types.ts`: `{ path, type, sha }`. -/
structure GitHubFile where
  path : List Char
  type : NodeKind
  sha : List Char
deriving DecidableEq

/-- `TreeNode` from `types.ts`: `{ name, path, type, children, sha? }`.
A nested inductive because `children : List TreeNode`. -/
inductive TreeNode where
  | mk (name : List Char) (path : List Char) (type : NodeKind)
      (children : List TreeNode) (sha : Option (List Char))

def TreeNode.name : TreeNode → List Char
  | .mk nm _ _ _ _ => nm

def TreeNode.path : TreeNode → List Char
  | .mk _ p _ _ _ => p

def TreeNode.type : TreeNode → NodeKind
  | .mk _ _ k _ _ => k

def TreeNode.children : TreeNode → List TreeNode
  | .mk _ _ _ cs _ => cs

def TreeNode.sha : TreeNode → Option (List Char)
  | .mk _ _ _ _ s => s

/-- Replace the children of a node, keeping every other field. -/
def TreeNode.withChildren : TreeNode → List TreeNode → TreeNode
  | .mk nm p k _ s, cs => .mk nm p k cs s

/-- `Suggestion` from `types.ts`. -/
structure Suggestion where
  lineNumber : Nat
  category : List Char
  description : List Char
  suggestion : List Char
deriving DecidableEq

/-- `ReviewResult` from `types.ts`. -/
structure ReviewResult where
  summary : List Char
  suggestions : List Suggestion
deriving DecidableEq

/-- `LoadingState` from `types.ts`. -/
inductive LoadingState where
  | IDLE
  | LOADING_REPO
  | LOADING_REVIEW
  | LOADING_REPO_REVIEW
deriving DecidableEq

/-- The `{processed, total}` record tracked in `reviewProgress`. -/
structure Progress where
  processed : Nat
  total : Nat
deriving DecidableEq

/-! ## JavaScript string idioms, on `List Char` -/

/-- JavaScript `str.split(sep)` for a one-character separator: the result is
never empty, `"".split(sep) = [""]`, and a trailing separator yields a final
empty segment. -/
def jsSplit (sep : Char) : List Char → List (List Char)
  | [] => [[]]
  | a :: t =>
    match jsSplit sep t with
    | [] => [[]]
    | s :: rest => if a = sep then [] :: s :: rest else (a :: s) :: rest

/-- JavaScript `arr.join(sep)` for a one-character separator. -/
def jsJoin (sep : Char) : List (List Char) → List Char
  | [] => []
  | [s] => s
  | s :: rest => s ++ sep :: jsJoin sep rest

/-- JavaScript `path.substring(path.lastIndexOf('.'))`: the suffix starting at
the last `'.'`; when there is no `'.'`, `lastIndexOf` is `-1` and `substring`
clamps it to `0`, so the whole string is returned. -/
def fromLastDot : List Char → List Char
  | [] => []
  | a :: t => if '.' ∈ t then fromLastDot t else a :: t

/-! ## `buildFileTree` (App.tsx lines 30-65) -/

/-- The first node of `ns` named `nm` together with the siblings before and
after it (`currentNode.children.find(child => child.name === part)`). -/
def splitAtName (nm : List Char) : List TreeNode → Option (List TreeNode × TreeNode × List TreeNode)
  | [] => none
  | n :: ns =>
    if n.name = nm then some ([], n, ns)
    else (splitAtName nm ns).map fun x => (n :: x.1, x.2.1, x.2.2)

/-- One iteration of the `files.forEach` body of `buildFileTree`: walk the
path segments `parts` of a file into the sibling list `ns`, creating missing
nodes (`type` = blob exactly at the final segment, which also carries the
file's `sha`), pushing new nodes at the end of their sibling list, and
descending into a node found by name whatever its kind.  `done` is the list
of segments already consumed, so a created node's `path` is
`arr.slice(0, index + 1).join('/')`. -/
def insertSegs (sha : List Char) (done : List (List Char)) :
    List (List Char) → List TreeNode → List TreeNode
  | [], ns => ns
  | part :: rest, ns =>
    match splitAtName part ns with
    | some (pre, n, post) =>
        pre ++ n.withChildren (insertSegs sha (done ++ [part]) rest n.children) :: post
    | none =>
        ns ++ [TreeNode.mk part (jsJoin '/' (done ++ [part]))
          (if rest = [] then .blob else .tree)
          (insertSegs sha (done ++ [part]) rest [])
          (if rest = [] then some sha else none)]

/-- The `files.forEach` loop of `buildFileTree`: the root's children after
all files have been inserted. -/
def buildChildren (files : List GitHubFile) : List TreeNode :=
  files.foldl (fun acc f => insertSegs f.sha [] (jsSplit '/' f.path) acc) []

/-- Code-point lexicographic comparison on names; this models
`a.name.localeCompare(b.name) <= 0`. -/
def lexLe : List Char → List Char → Bool
  | [], _ => true
  | _ :: _, [] => false
  | a :: as, b :: bs =>
    if a.toNat < b.toNat then true
    else if b.toNat < a.toNat then false
    else lexLe as bs

/-- The comparator of `sortNodes`: `tree` nodes before `blob` nodes, and
within a kind by name. -/
def nodeLe (a b : TreeNode) : Bool :=
  match a.type, b.type with
  | .tree, .blob => true
  | .blob, .tree => false
  | _, _ => lexLe a.name b.name

/-- `nodeLe` as a decidable relation, for `List.insertionSort`. -/
def NodeLeP (a b : TreeNode) : Prop := nodeLe a b = true

instance : DecidableRel NodeLeP := fun _ _ => inferInstanceAs (Decidable (_ = true))

/-- `sortNodes` applied to one node: a `tree` node gets its children sorted
recursively, a `blob` node's children are left untouched (the source only
recurses into `node.type === 'tree'`). -/
def sortNode : TreeNode → TreeNode
  | .mk nm p k cs s =>
    .mk nm p k
      (if k = .tree then List.insertionSort NodeLeP (cs.attach.map fun c => sortNode c.1) else cs) s
decreasing_by
  have h1 := List.sizeOf_lt_of_mem c.2
  cases c
  simp at h1 ⊢
  omega

/-- `sortNodes` (App.tsx lines 53-62) on a sibling list.  The source sorts the
list in place with a stable sort and then recurses into the `tree`-kind
members; recursing first and then sorting gives the same list because the
comparator only reads `type` and `name`, which `sortNode` preserves. -/
def sortNodes (ns : List TreeNode) : List TreeNode :=
  List.insertionSort NodeLeP (ns.map sortNode)

/-- `buildFileTree` (App.tsx lines 30-65): insert every file under an implicit
root, then sort, and return the root's children. -/
def buildFileTree (files : List GitHubFile) : List TreeNode :=
  sortNodes (buildChildren files)

/-! ## `collectFiles` and the extension allow-list (App.tsx lines 450-460,
`githubService.ts` lines 47-51) -/

/-- `collectFiles` from `handleAnalyzeRepo`: depth-first collection of the
`blob`-kind nodes, not recursing below a `blob` (`node.sha!` is modelled by
`Option.getD`). -/
def collectFiles : List TreeNode → List GitHubFile
  | [] => []
  | .mk _ p k cs s :: ns =>
    (if k = .blob then [⟨p, .blob, s.getD []⟩] else collectFiles cs) ++ collectFiles ns

/-- The `SOURCE_CODE_EXTENSIONS` constant (identical in `githubService.ts`
and `handleAnalyzeRepo`). -/
def SOURCE_CODE_EXTENSIONS : List (List Char) :=
  [".js", ".jsx", ".ts", ".tsx", ".py", ".java", ".c", ".cpp", ".h", ".hpp",
   ".cs", ".go", ".rs", ".swift", ".kt", ".kts", ".rb", ".php", ".m", ".scala",
   ".html", ".css", ".scss", ".less", ".vue", ".svelte"].map String.toList

/-- `SOURCE_CODE_EXTENSIONS.has(path.substring(path.lastIndexOf('.')))`:
the membership test both filters use. -/
def isSourceCodePath (p : List Char) : Bool :=
  SOURCE_CODE_EXTENSIONS.contains (fromLastDot p)

/-! ## The pure tail of `getRepoTree` (githubService.ts lines 81-89) -/

/-- One entry of the GitHub tree API response (the fields `getRepoTree`
reads). -/
structure GithubTreeItem where
  path : List Char
  type : NodeKind
  sha : List Char
deriving DecidableEq

/-- The pure selection/ordering tail of `getRepoTree`: keep `blob` entries
with a truthy (non-empty) path, keep `{path, type, sha}`, and return the
source-code files first, the rest after, each group in response order. -/
def getRepoTree (tree : List GithubTreeItem) : List GitHubFile :=
  let allFiles : List GitHubFile :=
    (tree.filter fun it => decide (it.type = .blob ∧ it.path ≠ [])).map
      fun it => ⟨it.path, it.type, it.sha⟩
  let sourceFiles := allFiles.filter fun f => isSourceCodePath f.path
  let otherFiles := allFiles.filter fun f => !isSourceCodePath f.path
  sourceFiles ++ otherFiles

/-! ## Gateways, `reviewCode`, and the App handlers (App.tsx lines 364-487,
geminiService.ts lines 300-347) -/

/-- An `{owner, repo}` pair. -/
structure RepoRef where
  owner : List Char
  repo : List Char
deriving DecidableEq

/-- The two network collaborators, as deterministic oracles: `getFileContent`
(GitHub contents API, after decoding/error wrapping) and the Gemini
`generateContent` call made inside `reviewCode` (after JSON parsing/error
wrapping). -/
structure Gateways where
  getFileContent : RepoRef → List Char → Except (List Char) (List Char)
  generateReview : List Char → List Char → Except (List Char) ReviewResult

def geminiKeyMissingMsg : List Char :=
  "Gemini API Key is missing. Please provide it before running an analysis.".toList

/-- `reviewCode` (geminiService.ts): fails locally when the key is absent,
otherwise forwards to the Gemini gateway.  Also returns how many gateway
calls were made. -/
def reviewCode (g : Gateways) (fileName code apiKey : List Char) :
    Except (List Char) ReviewResult × Nat :=
  if apiKey = [] then (.error geminiKeyMissingMsg, 0)
  else (g.generateReview fileName code, 1)

/-- The React state of `App` that the handlers read and write. -/
structure AppState where
  loading : LoadingState
  error : Option (List Char)
  apiKey : List Char
  fileTree : List TreeNode
  repoOwnerAndName : Option RepoRef
  selectedFile : Option GitHubFile
  fileContent : Option (List Char)
  review : Option ReviewResult
  repoReviewResults : Option (List (List Char × ReviewResult))
  reviewProgress : Option Progress

def apiKeyFileMsg : List Char :=
  "Please enter your Gemini API Key to analyze files.".toList

def apiKeyRepoMsg : List Char :=
  "Please enter your Gemini API Key to analyze the repository.".toList

def noReviewableMsg : List Char :=
  "No reviewable source code files found in this repository.".toList

/-- Calls made to each gateway during one handler run. -/
structure CallCounts where
  fetchCalls : Nat
  reviewCalls : Nat
deriving DecidableEq

/-- `handleFileSelect` (App.tsx lines 409-434).  Returns the new state and
the gateway call counts. -/
def handleFileSelect (g : Gateways) (st : AppState) (file : GitHubFile) :
    AppState × CallCounts :=
  if st.selectedFile.map GitHubFile.path = some file.path then (st, ⟨0, 0⟩)
  else
    match st.repoOwnerAndName with
    | none => (st, ⟨0, 0⟩)
    | some ref =>
      if st.apiKey = [] then ({st with error := some apiKeyFileMsg}, ⟨0, 0⟩)
      else
        let st1 := {st with loading := .LOADING_REVIEW, error := none, selectedFile := some file, fileContent := none, review := none, repoReviewResults := none}
        match g.getFileContent ref file.path with
        | .error e => ({st1 with error := some e, loading := .IDLE}, ⟨1, 0⟩)
        | .ok content =>
          let st2 := {st1 with fileContent := some content}
          match reviewCode g file.path content st.apiKey with
          | (.error e, rc) => ({st2 with error := some e, loading := .IDLE}, ⟨1, rc⟩)
          | (.ok r, rc) => ({st2 with review := some r, loading := .IDLE}, ⟨1, rc⟩)

/-- `results[file.path] = reviewResult`: JavaScript object assignment keeps
the key's first insertion position on overwrite. -/
def setKey (acc : List (List Char × ReviewResult)) (p : List Char) (r : ReviewResult) :
    List (List Char × ReviewResult) :=
  if acc.any fun x => x.1 = p then acc.map fun x => if x.1 = p then (p, r) else x
  else acc ++ [(p, r)]

/-- What one batch loop run produces. -/
structure BatchOut where
  results : List (List Char × ReviewResult)
  fetchCalls : Nat
  reviewCalls : Nat
  progressLog : List Progress
deriving DecidableEq

/-- The `for` loop of `handleAnalyzeRepo` (App.tsx lines 471-482): for each
file try `getFileContent` then `reviewCode`; insert into `results` on
success, skip on either failure; always push the progress update
`{processed: i + 1, total}`. -/
def runBatch (g : Gateways) (ref : RepoRef) (apiKey : List Char) (total : Nat) :
    List GitHubFile → Nat → List (List Char × ReviewResult) → BatchOut
  | [], _, acc => ⟨acc, 0, 0, []⟩
  | f :: rest, i, acc =>
    let step : Option (List Char × ReviewResult) × CallCounts :=
      match g.getFileContent ref f.path with
      | .error _ => (none, ⟨1, 0⟩)
      | .ok content =>
        match reviewCode g f.path content apiKey with
        | (.error _, rc) => (none, ⟨1, rc⟩)
        | (.ok r, rc) => (some (f.path, r), ⟨1, rc⟩)
    let acc' := match step.1 with
      | none => acc
      | some (p, r) => setKey acc p r
    let out := runBatch g ref apiKey total rest (i + 1) acc'
    ⟨out.results, step.2.fetchCalls + out.fetchCalls,
     step.2.reviewCalls + out.reviewCalls, ⟨i + 1, total⟩ :: out.progressLog⟩

/-- What one `handleAnalyzeRepo` run produces: the final state, the gateway
call counts, and every progress value set during the run, in order. -/
structure RepoAnalyzeOut where
  state : AppState
  fetchCalls : Nat
  reviewCalls : Nat
  progressLog : List Progress

/-- `handleAnalyzeRepo` (App.tsx lines 436-487). -/
def handleAnalyzeRepo (g : Gateways) (st : AppState) : RepoAnalyzeOut :=
  match st.repoOwnerAndName with
  | none => ⟨st, 0, 0, []⟩
  | some ref =>
    if st.apiKey = [] then ⟨{st with error := some apiKeyRepoMsg}, 0, 0, []⟩
    else
      let st1 := {st with loading := .LOADING_REPO_REVIEW, error := none, selectedFile := none, review := none, repoReviewResults := none}
      let allFiles := collectFiles st.fileTree
      let filesToReview := allFiles.filter fun f => isSourceCodePath f.path
      if filesToReview.length = 0 then
        ⟨{st1 with error := some noReviewableMsg, loading := .IDLE}, 0, 0, []⟩
      else
        let out := runBatch g ref st.apiKey filesToReview.length filesToReview 0 []
        ⟨{st1 with repoReviewResults := some out.results, reviewProgress := none, loading := .IDLE},
         out.fetchCalls, out.reviewCalls,
         Progress.mk 0 filesToReview.length :: out.progressLog⟩

/-! ## Analysis-side definitions -/

/-- The path segments of a file (`file.path.split('/')`). -/
def segsOf (f : GitHubFile) : List (List Char) :=
  jsSplit '/' f.path

/-- Two segment lists, neither of which is a (not necessarily proper) prefix
of the other. -/
def NonPrefixPair (a b : List (List Char)) : Prop :=
  ¬ a <+: b ∧ ¬ b <+: a

/-- A file list whose segment lists are pairwise prefix-free: no file's path
is a segment-wise prefix of another's (this also forces the paths to be
pairwise distinct). -/
def PrefixFree (files : List GitHubFile) : Prop :=
  (files.map segsOf).Pairwise NonPrefixPair

instance : DecidablePred PrefixFree := fun files => by
  unfold PrefixFree NonPrefixPair
  infer_instance

/-- One node of a forest, flattened: the chain of names from the root down
to the node, together with the node's stored attributes. -/
structure Entry where
  chain : List (List Char)
  path : List Char
  type : NodeKind
  sha : Option (List Char)
deriving DecidableEq

/-- Prepend a name to an entry's chain. -/
def entryCons (nm : List Char) (e : Entry) : Entry :=
  ⟨nm :: e.chain, e.path, e.type, e.sha⟩

/-- All nodes of a forest, flattened to their chains and attributes, in
depth-first order. -/
def flatAll : List TreeNode → List Entry
  | [] => []
  | .mk nm p k cs s :: ns =>
    ⟨[nm], p, k, s⟩ :: ((flatAll cs).map (entryCons nm) ++ flatAll ns)

/-- The chains of all nodes of a forest. -/
def chains (ns : List TreeNode) : List (List (List Char)) :=
  (flatAll ns).map Entry.chain

/-- Every `blob`-kind node of the forest is a leaf. -/
def leafBlobs : List TreeNode → Prop
  | [] => True
  | .mk _ _ k cs _ :: ns => (k = .blob → cs = []) ∧ leafBlobs cs ∧ leafBlobs ns

/-- The children list of every node of the forest. -/
def childLevels : List TreeNode → List (List TreeNode)
  | [] => []
  | .mk _ _ _ cs _ :: ns => (cs :: childLevels cs) ++ childLevels ns

/-- Every sibling sequence appearing in the forest: the top-level sequence
and the children of every node. -/
def allLevels (ns : List TreeNode) : List (List TreeNode) :=
  ns :: childLevels ns

/-- The ordering the spec claims for siblings: every `tree`-kind child
precedes every `blob`-kind child, and within a kind, names are
non-decreasing. -/
def claimOrder (a b : TreeNode) : Prop :=
  (a.type = .tree ∧ b.type = .blob) ∨ (a.type = b.type ∧ lexLe a.name b.name = true)

/-- The nonempty prefixes of a segment list, shortest first. -/
def prefixesNE : List (List Char) → List (List (List Char))
  | [] => []
  | s :: rest => [s] :: (prefixesNE rest).map (s :: ·)

/-- The longest prefix not containing the character `c`
(`takeWhile (· ≠ c)`, with definitional equations that are convenient for
induction). -/
def takeNe (c : Char) : List Char → List Char
  | [] => []
  | a :: t => if a = c then [] else a :: takeNe c t

/-- The final path segment: the substring after the last `'/'` (the whole
path when it has no `'/'`). -/
def finalSegment (p : List Char) : List Char :=
  (takeNe '/' p.reverse).reverse

/-- The spec's wording of the batch filter, for comparison with the code's
`isSourceCodePath`: the substring starting at the last `'.'` **within the
final segment** must be in the allow-list; a final segment without a `'.'`
is never selected. -/
def specSelects (p : List Char) : Prop :=
  '.' ∈ finalSegment p ∧ fromLastDot (finalSegment p) ∈ SOURCE_CODE_EXTENSIONS

/-- What the batch loop does for one file: `some (path, review)` when both
gateway calls succeed, `none` when either fails. -/
def fileOutcome (g : Gateways) (ref : RepoRef) (apiKey : List Char) (f : GitHubFile) :
    Option (List Char × ReviewResult) :=
  match g.getFileContent ref f.path with
  | .error _ => none
  | .ok content =>
    match reviewCode g f.path content apiKey with
    | (.error _, _) => none
    | (.ok r, _) => some (f.path, r)

/-- Whether both phases succeed for a file. -/
def fileSucceeds (g : Gateways) (ref : RepoRef) (apiKey : List Char) (f : GitHubFile) : Bool :=
  (fileOutcome g ref apiKey f).isSome

/-- The `allFiles` intermediate of `getRepoTree`: blob entries with truthy
paths, in response order. -/
def validBlobs (tree : List GithubTreeItem) : List GitHubFile :=
  (tree.filter fun it => decide (it.type = .blob ∧ it.path ≠ [])).map
    fun it => ⟨it.path, it.type, it.sha⟩

/-- The files the batch loop will iterate over, given the state's tree. -/
def filesToReviewOf (st : AppState) : List GitHubFile :=
  (collectFiles st.fileTree).filter fun f => isSourceCodePath f.path

/-! ## Concrete sample data used by witnesses and counterexamples -/

def refW : RepoRef := ⟨['o'], ['r']⟩

def fileA : GitHubFile := ⟨"a.ts".toList, .blob, ['1']⟩

def fileB : GitHubFile := ⟨"b.ts".toList, .blob, ['2']⟩

def treeW : List TreeNode :=
  [.mk "a.ts".toList "a.ts".toList .blob [] (some ['1']),
   .mk "b.ts".toList "b.ts".toList .blob [] (some ['2'])]

def reviewW : ReviewResult := ⟨"ok".toList, []⟩

/-- A gateway where fetching `a.ts` succeeds and every other fetch fails,
and the review backend always succeeds. -/
def gW : Gateways :=
  ⟨fun _ p => if p = "a.ts".toList then .ok ['x'] else .error "E".toList,
   fun _ _ => .ok reviewW⟩

def stW : AppState :=
  ⟨.IDLE, none, ['k'], treeW, some refW, none, none, none, none, none⟩

/-- The end-to-end example input of the spec. -/
def exFiles : List GitHubFile :=
  [⟨"src/a.ts".toList, .blob, ['1']⟩, ⟨"src/b.py".toList, .blob, ['2']⟩,
   ⟨"readme.md".toList, .blob, ['3']⟩]

/-- Counterexample input: `"a/b"` then `"a"` (unique paths, but `"a"` is a
segment-wise prefix of `"a/b"`). -/
def cexFiles : List GitHubFile :=
  [⟨"a/b".toList, .blob, ['1']⟩, ⟨['a'], .blob, ['2']⟩]

/-- Counterexample input for the sibling-ordering claim: a blob `"a"` whose
path prefixes `"a/c"` and `"a/b"` force children under a blob node, which
`sortNodes` never sorts. -/
def cexFiles4 : List GitHubFile :=
  [⟨['a'], .blob, ['1']⟩, ⟨"a/c".toList, .blob, ['2']⟩, ⟨"a/b".toList, .blob, ['3']⟩]

/-- The attributes `insertSegs` gives a newly created node at chain `c`
(relative to `done`), when inserting the full segment list `parts`. -/
def entryFor (sha : List Char) (done parts : List (List Char)) (c : List (List Char)) : Entry :=
  ⟨c, jsJoin '/' (done ++ c), if c = parts then .blob else .tree,
   if c = parts then some sha else none⟩

/-- The entries created by inserting `parts` into `ns`: one per nonempty
prefix of `parts` that is not already a chain of `ns`. -/
def newEntries (sha : List Char) (done parts : List (List Char)) (ns : List TreeNode) :
    List Entry :=
  ((prefixesNE parts).filter fun c => decide (c ∉ chains ns)).map (entryFor sha done parts)

/-- The attribute tuple carried by a top-level node. -/
structure TopInfo where
  name : List Char
  path : List Char
  type : NodeKind
  sha : Option (List Char)
deriving DecidableEq

/-- Select the entries of top-level nodes (chains of length one). -/
def selTop : Entry → Option TopInfo
  | ⟨[nm], p, k, s⟩ => some ⟨nm, p, k, s⟩
  | _ => none

/-- Select the entries lying strictly below the top-level node named `nm`,
re-rooted at its children. -/
def selSub (nm : List Char) : Entry → Option Entry
  | ⟨nm' :: c₁ :: cr, p, k, s⟩ => if nm' = nm then some ⟨c₁ :: cr, p, k, s⟩ else none
  | _ => none

def infoOf (n : TreeNode) : TopInfo := ⟨n.name, n.path, n.type, n.sha⟩

/-- The flattened entry a blob descriptor should produce. -/
def blobEntryOf (f : GitHubFile) : Entry := ⟨segsOf f, f.path, .blob, some f.sha⟩

/-- The entries the built forest must consist of, as a predicate determined
only by the *set* of input files: nonempty prefixes of input segment lists,
with the joined path, blob exactly at full input paths (carrying that file's
sha), tree (with no sha) elsewhere. -/
def MemSpec (files : List GitHubFile) (e : Entry) : Prop :=
  e.chain ≠ [] ∧ (∃ f ∈ files, e.chain <+: segsOf f) ∧ e.path = jsJoin '/' e.chain ∧
  ((e.type = .blob ∧ ∃ f ∈ files, segsOf f = e.chain ∧ e.sha = some f.sha) ∨
   (e.type = .tree ∧ e.sha = none ∧ ¬ ∃ f ∈ files, segsOf f = e.chain))

/-- Folding the `buildFileTree` insertion over a file list, starting from an
arbitrary forest (`buildChildren files = insertAll files []`). -/
def insertAll (files : List GitHubFile) (ns : List TreeNode) : List TreeNode :=
  files.foldl (fun acc f => insertSegs f.sha [] (jsSplit '/' f.path) acc) ns

/-! # Theorems -/

@[simp] theorem TreeNode.name_mk (nm p k cs s) : (TreeNode.mk nm p k cs s).name = nm := rfl

@[simp] theorem TreeNode.path_mk (nm p k cs s) : (TreeNode.mk nm p k cs s).path = p := rfl

@[simp] theorem TreeNode.type_mk (nm p k cs s) : (TreeNode.mk nm p k cs s).type = k := rfl

@[simp] theorem TreeNode.children_mk (nm p k cs s) : (TreeNode.mk nm p k cs s).children = cs := rfl

@[simp] theorem TreeNode.sha_mk (nm p k cs s) : (TreeNode.mk nm p k cs s).sha = s := rfl

@[simp] theorem TreeNode.withChildren_mk (nm p k cs s cs') :
    (TreeNode.mk nm p k cs s).withChildren cs' = .mk nm p k cs' s := rfl

theorem TreeNode.eta : ∀ n : TreeNode, TreeNode.mk n.name n.path n.type n.children n.sha = n
  | .mk _ _ _ _ _ => rfl

/-! ## The single-file handler: C10, C5, C6 -/

/-- **C10**: selecting a file whose path equals the currently selected file's
path returns immediately: no gateway calls and a completely unchanged state. -/
theorem handleFileSelect_same_path_noop (g : Gateways) (st : AppState) (file : GitHubFile)
    (h : st.selectedFile.map GitHubFile.path = some file.path) :
    handleFileSelect g st file = (st, ⟨0, 0⟩) := by
  simp [handleFileSelect, h]

/-- Witness for C10 at a concrete state. -/
theorem handleFileSelect_same_path_noop_witness :
    ({stW with selectedFile := some fileA} : AppState).selectedFile.map GitHubFile.path
      = some fileA.path ∧
    handleFileSelect gW {stW with selectedFile := some fileA} fileA
      = ({stW with selectedFile := some fileA}, ⟨0, 0⟩) :=
  ⟨rfl, handleFileSelect_same_path_noop gW _ fileA rfl⟩

/-- **C5**: with no API key (and the no-op guard inactive), `handleFileSelect`
only records the local missing-credential message: zero calls to either
gateway, and every other piece of state unchanged. -/
theorem handleFileSelect_missingCredential (g : Gateways) (st : AppState) (file : GitHubFile)
    (ref : RepoRef)
    (hsel : st.selectedFile.map GitHubFile.path ≠ some file.path)
    (href : st.repoOwnerAndName = some ref)
    (hkey : st.apiKey = []) :
    handleFileSelect g st file = ({st with error := some apiKeyFileMsg}, ⟨0, 0⟩) := by
  simp [handleFileSelect, hsel, href, hkey]

/-- Witness for C5 at a concrete state. -/
theorem handleFileSelect_missingCredential_witness :
    (({stW with apiKey := []} : AppState).selectedFile.map GitHubFile.path ≠ some fileA.path) ∧
    handleFileSelect gW {stW with apiKey := []} fileA
      = ({({stW with apiKey := []} : AppState) with error := some apiKeyFileMsg}, ⟨0, 0⟩) :=
  ⟨by decide, handleFileSelect_missingCredential gW _ fileA refW (by decide) rfl rfl⟩

/-- **C6**: when the content fetch fails, `handleFileSelect` never calls the
review gateway, stores the fetch error, and leaves no partial result
(`fileContent` and `review` are both `null`). -/
theorem handleFileSelect_fetch_error (g : Gateways) (st : AppState) (file : GitHubFile)
    (ref : RepoRef) (e : List Char)
    (hsel : st.selectedFile.map GitHubFile.path ≠ some file.path)
    (href : st.repoOwnerAndName = some ref)
    (hkey : st.apiKey ≠ [])
    (hfetch : g.getFileContent ref file.path = .error e) :
    handleFileSelect g st file =
      ({st with loading := .IDLE, error := some e, selectedFile := some file, fileContent := none, review := none, repoReviewResults := none}, ⟨1, 0⟩) := by
  simp [handleFileSelect, hsel, href, hkey, hfetch]

/-- Witness for C6 at a concrete state (fetching `b.ts` fails under `gW`). -/
theorem handleFileSelect_fetch_error_witness :
    (stW.selectedFile.map GitHubFile.path ≠ some fileB.path) ∧
    gW.getFileContent refW fileB.path = .error "E".toList ∧
    handleFileSelect gW stW fileB =
      ({stW with loading := .IDLE, error := some "E".toList, selectedFile := some fileB, fileContent := none, review := none, repoReviewResults := none}, ⟨1, 0⟩) :=
  ⟨by decide, rfl,
    handleFileSelect_fetch_error gW stW fileB refW "E".toList (by decide) rfl (by decide) rfl⟩

/-! ## The batch handler preconditions: C7 -/

/-- **C7**: when the filtered set is empty, `handleAnalyzeRepo` records the
local no-reviewable-files message and makes zero gateway calls. -/
theorem handleAnalyzeRepo_noReviewableFiles (g : Gateways) (st : AppState) (ref : RepoRef)
    (href : st.repoOwnerAndName = some ref)
    (hkey : st.apiKey ≠ [])
    (hempty : filesToReviewOf st = []) :
    handleAnalyzeRepo g st =
      ⟨{st with loading := .IDLE, error := some noReviewableMsg, selectedFile := none, review := none, repoReviewResults := none}, 0, 0, []⟩ := by
  unfold filesToReviewOf at hempty
  simp [handleAnalyzeRepo, href, hkey, hempty]

/-- Witness for C7: a state whose file tree is empty. -/
theorem handleAnalyzeRepo_noReviewableFiles_witness :
    filesToReviewOf {stW with fileTree := []} = [] ∧
    handleAnalyzeRepo gW {stW with fileTree := []} =
      ⟨{({stW with fileTree := []} : AppState) with loading := .IDLE, error := some noReviewableMsg, selectedFile := none, review := none, repoReviewResults := none}, 0, 0, []⟩ :=
  ⟨by simp [filesToReviewOf, collectFiles],
   handleAnalyzeRepo_noReviewableFiles gW _ refW rfl (by decide)
     (by simp [filesToReviewOf, collectFiles])⟩

/-! ## The batch loop: C1 -/

theorem setKey_of_not_mem (acc : List (List Char × ReviewResult)) (p : List Char)
    (r : ReviewResult) (h : ∀ x ∈ acc, x.1 ≠ p) :
    setKey acc p r = acc ++ [(p, r)] := by
  unfold setKey
  have : (acc.any fun x => x.1 = p) = false := by
    simp only [List.any_eq_false, decide_eq_true_eq]
    exact h
  simp [this]

theorem fileOutcome_fst (g : Gateways) (ref : RepoRef) (key : List Char) (f : GitHubFile)
    (x : List Char × ReviewResult) (h : fileOutcome g ref key f = some x) :
    x.1 = f.path := by
  unfold fileOutcome at h
  rcases hc : g.getFileContent ref f.path with e | c
  · simp only [hc] at h
    simp at h
  · simp only [hc] at h
    rcases hr : reviewCode g f.path c key with ⟨res, rc⟩
    simp only [hr] at h
    rcases res with e' | r
    · simp at h
    · simp only [Option.some.injEq] at h
      rw [← h]

theorem runBatch_results (g : Gateways) (ref : RepoRef) (key : List Char) :
    ∀ (files : List GitHubFile) (i total : Nat) (acc : List (List Char × ReviewResult)),
    (∀ f ∈ files, ∀ x ∈ acc, x.1 ≠ f.path) →
    (files.map GitHubFile.path).Nodup →
    (runBatch g ref key total files i acc).results
      = acc ++ files.filterMap (fileOutcome g ref key)
  | [], i, total, acc, _, _ => by simp [runBatch]
  | f :: rest, i, total, acc, hdis, hnd => by
    rw [runBatch]
    rcases hc : g.getFileContent ref f.path with e | c
    · have houtc : fileOutcome g ref key f = none := by simp [fileOutcome, hc]
      simp only [hc]
      rw [runBatch_results g ref key rest (i + 1) total acc
        (fun f' hf' x hx => hdis f' (List.mem_cons_of_mem _ hf') x hx)
        (by simpa using hnd.of_cons)]
      simp [houtc]
    · rcases hr : reviewCode g f.path c key with ⟨res, rc⟩
      rcases res with e' | r
      · have houtc : fileOutcome g ref key f = none := by simp [fileOutcome, hc, hr]
        simp only [hc, hr]
        rw [runBatch_results g ref key rest (i + 1) total acc
          (fun f' hf' x hx => hdis f' (List.mem_cons_of_mem _ hf') x hx)
          (by simpa using hnd.of_cons)]
        simp [houtc]
      · have houtc : fileOutcome g ref key f = some (f.path, r) := by
          simp [fileOutcome, hc, hr]
        have hset : setKey acc f.path r = acc ++ [(f.path, r)] :=
          setKey_of_not_mem acc f.path r fun x hx => hdis f (by simp) x hx
        simp only [hc, hr]
        rw [hset, runBatch_results g ref key rest (i + 1) total (acc ++ [(f.path, r)])
          ?_ (by simpa using hnd.of_cons)]
        · simp [houtc]
        · intro f' hf' x hx
          rcases List.mem_append.mp hx with h | h
          · exact hdis f' (List.mem_cons_of_mem _ hf') x h
          · simp only [List.mem_singleton] at h
            subst h
            have : f.path ∉ rest.map GitHubFile.path := by
              have := hnd
              simp only [List.map_cons, List.nodup_cons] at this
              exact this.1
            simp only [List.mem_map] at this
            intro hcontra
            exact this ⟨f', hf', by simpa using hcontra.symm⟩

theorem runBatch_progress (g : Gateways) (ref : RepoRef) (key : List Char) :
    ∀ (files : List GitHubFile) (i total : Nat) (acc : List (List Char × ReviewResult)),
    (runBatch g ref key total files i acc).progressLog
      = (List.range files.length).map fun k => Progress.mk (i + k + 1) total
  | [], i, total, acc => by simp [runBatch]
  | f :: rest, i, total, acc => by
    have key_eq : ∀ n, (List.range (n + 1)).map (fun k => Progress.mk (i + k + 1) total)
        = Progress.mk (i + 1) total
          :: (List.range n).map fun k => Progress.mk (i + 1 + k + 1) total := by
      intro n
      rw [List.range_succ_eq_map, List.map_cons, List.map_map]
      refine congrArg₂ _ rfl (List.map_congr_left fun k _ => ?_)
      simp only [Function.comp]
      refine congrArg₂ _ (by omega) rfl
    rw [runBatch]
    have step : ∀ acc', (runBatch g ref key total rest (i + 1) acc').progressLog
        = (List.range rest.length).map fun k => Progress.mk (i + 1 + k + 1) total :=
      fun acc' => runBatch_progress g ref key rest (i + 1) total acc'
    rcases hc : g.getFileContent ref f.path with e | c
    · simp only [hc, step, List.length_cons, key_eq]
    · rcases hr : reviewCode g f.path c key with ⟨res, rc⟩
      rcases res with e' | r <;>
        simp only [hc, hr, step, List.length_cons, key_eq]

theorem filterMap_fileOutcome_fst (g : Gateways) (ref : RepoRef) (key : List Char) :
    ∀ l : List GitHubFile,
    (l.filterMap (fileOutcome g ref key)).map Prod.fst
      = (l.filter (fileSucceeds g ref key)).map GitHubFile.path
  | [] => rfl
  | f :: rest => by
    rcases h : fileOutcome g ref key f with _ | x
    · simp [h, fileSucceeds, filterMap_fileOutcome_fst g ref key rest]
    · simp [h, fileSucceeds, filterMap_fileOutcome_fst g ref key rest,
        fileOutcome_fst g ref key f x h]

theorem filterMap_fileOutcome_length (g : Gateways) (ref : RepoRef) (key : List Char) :
    ∀ l : List GitHubFile,
    (l.filterMap (fileOutcome g ref key)).length
      + (l.filter fun f => !fileSucceeds g ref key f).length = l.length
  | [] => rfl
  | f :: rest => by
    have ih := filterMap_fileOutcome_length g ref key rest
    rcases h : fileOutcome g ref key f with _ | x
    · have hs : fileSucceeds g ref key f = false := by simp [fileSucceeds, h]
      simp [List.filterMap_cons, h, List.filter_cons, hs]
      omega
    · have hs : fileSucceeds g ref key f = true := by simp [fileSucceeds, h]
      simp [List.filterMap_cons, h, List.filter_cons, hs]
      omega

/-- **C1**: once the filtered set is non-empty (and the repo/key
preconditions hold), `handleAnalyzeRepo` always completes: no error is
stored, the aggregate holds exactly one entry per file whose two gateway
calls succeeded, keyed by path and omitting precisely the failed files, and
the progress log runs `{0,N} … {N,N}`, ending at `{N,N}`. -/
theorem handleAnalyzeRepo_absorbs_failures (g : Gateways) (st : AppState) (ref : RepoRef)
    (href : st.repoOwnerAndName = some ref) (hkey : st.apiKey ≠ [])
    (hne : filesToReviewOf st ≠ [])
    (hnd : ((filesToReviewOf st).map GitHubFile.path).Nodup) :
    (handleAnalyzeRepo g st).state.error = none ∧
    (handleAnalyzeRepo g st).state.loading = .IDLE ∧
    (handleAnalyzeRepo g st).state.repoReviewResults
      = some ((filesToReviewOf st).filterMap (fileOutcome g ref st.apiKey)) ∧
    ((filesToReviewOf st).filterMap (fileOutcome g ref st.apiKey)).map Prod.fst
      = ((filesToReviewOf st).filter (fileSucceeds g ref st.apiKey)).map GitHubFile.path ∧
    ((filesToReviewOf st).filterMap (fileOutcome g ref st.apiKey)).length
      + ((filesToReviewOf st).filter fun f => !fileSucceeds g ref st.apiKey f).length
      = (filesToReviewOf st).length ∧
    (handleAnalyzeRepo g st).progressLog
      = (List.range ((filesToReviewOf st).length + 1)).map
          (fun k => Progress.mk k (filesToReviewOf st).length) ∧
    (handleAnalyzeRepo g st).progressLog.getLast?
      = some ⟨(filesToReviewOf st).length, (filesToReviewOf st).length⟩ := by
  have hf : (collectFiles st.fileTree).filter (fun f => isSourceCodePath f.path)
      = filesToReviewOf st := rfl
  have hlen : ¬ (filesToReviewOf st).length = 0 := by
    intro h
    exact hne (List.length_eq_zero.mp h)
  have hout : handleAnalyzeRepo g st =
      ⟨{st with loading := .IDLE, error := none, selectedFile := none, review := none, repoReviewResults := some ((runBatch g ref st.apiKey (filesToReviewOf st).length (filesToReviewOf st) 0 []).results), reviewProgress := none},
        (runBatch g ref st.apiKey (filesToReviewOf st).length (filesToReviewOf st) 0
          []).fetchCalls,
        (runBatch g ref st.apiKey (filesToReviewOf st).length (filesToReviewOf st) 0
          []).reviewCalls,
        Progress.mk 0 (filesToReviewOf st).length
          :: (runBatch g ref st.apiKey (filesToReviewOf st).length (filesToReviewOf st) 0
            []).progressLog⟩ := by
    unfold handleAnalyzeRepo
    simp [href, hkey, hf, hlen]
  have hres := runBatch_results g ref st.apiKey (filesToReviewOf st) 0
    (filesToReviewOf st).length [] (by simp) hnd
  have hprog := runBatch_progress g ref st.apiKey (filesToReviewOf st) 0
    (filesToReviewOf st).length []
  have hlog : (handleAnalyzeRepo g st).progressLog
      = (List.range ((filesToReviewOf st).length + 1)).map
          (fun k => Progress.mk k (filesToReviewOf st).length) := by
    rw [hout]
    simp only [hprog, List.range_succ_eq_map, List.map_cons, List.map_map]
    refine congrArg₂ _ rfl (List.map_congr_left fun k _ => ?_)
    simp only [Function.comp]
    refine congrArg₂ _ (by omega) rfl
  refine ⟨by rw [hout], by rw [hout], ?_, filterMap_fileOutcome_fst g ref st.apiKey _,
    filterMap_fileOutcome_length g ref st.apiKey _, hlog, ?_⟩
  · rw [hout]
    simp only [hres, List.nil_append]
  · rw [hlog, List.range_succ, List.map_append]
    simp

theorem collectFiles_treeW : collectFiles treeW = [fileA, fileB] := by
  simp [treeW, collectFiles, fileA, fileB]

theorem filesToReviewOf_stW : filesToReviewOf stW = [fileA, fileB] := by
  unfold filesToReviewOf
  rw [show stW.fileTree = treeW from rfl, collectFiles_treeW]
  decide

/-- Witness for C1: two filtered files, the second one's fetch fails; the
aggregate keeps exactly the first file's path and progress ends at `{2,2}`. -/
theorem handleAnalyzeRepo_absorbs_failures_witness :
    stW.repoOwnerAndName = some refW ∧ stW.apiKey ≠ [] ∧ filesToReviewOf stW ≠ [] ∧
    ((filesToReviewOf stW).map GitHubFile.path).Nodup ∧
    ((handleAnalyzeRepo gW stW).state.error = none ∧
     (handleAnalyzeRepo gW stW).state.loading = .IDLE ∧
     (handleAnalyzeRepo gW stW).state.repoReviewResults
       = some ((filesToReviewOf stW).filterMap (fileOutcome gW refW stW.apiKey)) ∧
     ((filesToReviewOf stW).filterMap (fileOutcome gW refW stW.apiKey)).map Prod.fst
       = ((filesToReviewOf stW).filter (fileSucceeds gW refW stW.apiKey)).map GitHubFile.path ∧
     ((filesToReviewOf stW).filterMap (fileOutcome gW refW stW.apiKey)).length
       + ((filesToReviewOf stW).filter fun f => !fileSucceeds gW refW stW.apiKey f).length
       = (filesToReviewOf stW).length ∧
     (handleAnalyzeRepo gW stW).progressLog
       = (List.range ((filesToReviewOf stW).length + 1)).map
           (fun k => Progress.mk k (filesToReviewOf stW).length) ∧
     (handleAnalyzeRepo gW stW).progressLog.getLast?
       = some ⟨(filesToReviewOf stW).length, (filesToReviewOf stW).length⟩) :=
  ⟨rfl, by decide, by rw [filesToReviewOf_stW]; decide, by rw [filesToReviewOf_stW]; decide,
   handleAnalyzeRepo_absorbs_failures gW stW refW rfl (by decide)
     (by rw [filesToReviewOf_stW]; decide) (by rw [filesToReviewOf_stW]; decide)⟩

/-! ## `getRepoTree` ordering: C9 -/

/-- **C9**: `getRepoTree` returns a stable partition of the valid blob
entries: only blob entries with non-empty paths appear, the output is a
permutation of them, and it is exactly the source-extension group followed
by the rest, each group in response order. -/
theorem getRepoTree_stable_partition (tree : List GithubTreeItem) :
    (∀ f ∈ getRepoTree tree,
      ∃ it ∈ tree, it.type = .blob ∧ it.path ≠ [] ∧ f = ⟨it.path, it.type, it.sha⟩) ∧
    (getRepoTree tree).Perm (validBlobs tree) ∧
    (getRepoTree tree).take ((validBlobs tree).filter (fun f => isSourceCodePath f.path)).length
      = (validBlobs tree).filter (fun f => isSourceCodePath f.path) ∧
    (getRepoTree tree).drop ((validBlobs tree).filter (fun f => isSourceCodePath f.path)).length
      = (validBlobs tree).filter (fun f => !isSourceCodePath f.path) := by
  have hdef : getRepoTree tree
      = (validBlobs tree).filter (fun f => isSourceCodePath f.path)
        ++ (validBlobs tree).filter (fun f => !isSourceCodePath f.path) := rfl
  refine ⟨?_, ?_, ?_, ?_⟩
  · intro f hf
    rw [hdef] at hf
    have hmem : f ∈ validBlobs tree := by
      rcases List.mem_append.mp hf with h | h
      exacts [List.mem_of_mem_filter h, List.mem_of_mem_filter h]
    unfold validBlobs at hmem
    rcases List.mem_map.mp hmem with ⟨it, hit, rfl⟩
    have h2 := List.mem_filter.mp hit
    have h3 := of_decide_eq_true h2.2
    exact ⟨it, h2.1, h3.1, h3.2, rfl⟩
  · rw [hdef]
    exact List.filter_append_perm _ _
  · rw [hdef]
    exact List.take_left _ _
  · rw [hdef]
    exact List.drop_left _ _

/-! ## The batch filter and file extensions: C8 -/

theorem takeNe_append_of_mem (c : Char) :
    ∀ (xs ys : List Char), c ∈ xs → takeNe c (xs ++ ys) = takeNe c xs
  | [], _, h => absurd h (by simp)
  | a :: t, ys, h => by
    by_cases hac : a = c
    · simp [takeNe, hac]
    · have hct : c ∈ t := by
        rcases List.mem_cons.mp h with h' | h'
        · exact absurd h'.symm hac
        · exact h'
      simp [takeNe, hac, takeNe_append_of_mem c t ys hct]

theorem takeNe_append_of_not_mem (c : Char) :
    ∀ (xs ys : List Char), c ∉ xs → takeNe c (xs ++ ys) = xs ++ takeNe c ys
  | [], _, _ => rfl
  | a :: t, ys, h => by
    have hac : ¬ a = c := fun e => h (by simp [e])
    have hct : c ∉ t := fun e => h (by simp [e])
    simp [takeNe, hac, takeNe_append_of_not_mem c t ys hct]

theorem mem_of_mem_takeNe (c x : Char) :
    ∀ rp : List Char, x ∈ takeNe c rp → x ∈ rp
  | [], h => absurd h (by simp [takeNe])
  | a :: t, h => by
    by_cases hac : a = c
    · simp [takeNe, hac] at h
    · simp only [takeNe, hac, if_false, List.mem_cons] at h
      rcases h with h' | h'
      · simp [h']
      · simp [mem_of_mem_takeNe c x t h']

theorem fromLastDot_of_not_mem : ∀ p : List Char, '.' ∉ p → fromLastDot p = p
  | [], _ => rfl
  | a :: t, h => by
    have ht : '.' ∉ t := fun e => h (by simp [e])
    simp [fromLastDot, ht]

theorem fromLastDot_of_mem : ∀ p : List Char, '.' ∈ p →
    fromLastDot p = '.' :: (takeNe '.' p.reverse).reverse
  | [], h => absurd h (by simp)
  | a :: t, h => by
    by_cases hdt : '.' ∈ t
    · rw [show fromLastDot (a :: t) = fromLastDot t by simp [fromLastDot, hdt]]
      rw [fromLastDot_of_mem t hdt]
      have : takeNe '.' (t.reverse ++ [a]) = takeNe '.' t.reverse :=
        takeNe_append_of_mem '.' t.reverse [a] (by simpa using hdt)
      simp [this]
    · have ha : a = '.' := by
        rcases List.mem_cons.mp h with h' | h'
        · exact h'.symm
        · exact absurd h' hdt
      subst ha
      rw [show fromLastDot ('.' :: t) = '.' :: t by simp [fromLastDot, hdt]]
      have : takeNe '.' (t.reverse ++ ['.']) = t.reverse ++ takeNe '.' ['.'] :=
        takeNe_append_of_not_mem '.' t.reverse ['.'] (by simpa using hdt)
      simp [this, takeNe]

theorem takeNe_takeNe (c d : Char) :
    ∀ rp : List Char, c ∈ takeNe d rp →
      takeNe c (takeNe d rp) = takeNe c rp
  | [], h => absurd h (by simp [takeNe])
  | a :: t, h => by
    by_cases had : a = d
    · simp [takeNe, had] at h
    · by_cases hac : a = c
      · subst hac
        simp [takeNe, had]
      · have hct : c ∈ takeNe d t := by
          simp only [takeNe, had, if_false, List.mem_cons] at h
          rcases h with h' | h'
          · exact absurd h'.symm hac
          · exact h'
        simp [takeNe, had, hac, takeNe_takeNe c d t hct]

theorem mem_takeNe_of_not_mem_takeNe (c d : Char) (hcd : c ≠ d) :
    ∀ rp : List Char, c ∈ rp → c ∉ takeNe d rp → d ∈ takeNe c rp
  | [], h, _ => absurd h (by simp)
  | a :: t, h, h2 => by
    by_cases hac : a = c
    · subst hac
      exact absurd (by simp [takeNe, hcd]) h2
    · by_cases had : a = d
      · subst had
        simp [takeNe, fun e : a = c => hac e]
      · have hct : c ∈ t := by
          rcases List.mem_cons.mp h with h' | h'
          · exact absurd h'.symm hac
          · exact h'
        have h2t : c ∉ takeNe d t := by
          intro hx
          exact h2 (by simp [takeNe, had, hx])
        have := mem_takeNe_of_not_mem_takeNe c d hcd t hct h2t
        simp [takeNe, hac, had, this]

/-- Every allow-list extension contains a dot and no slash. -/
theorem sourceExts_facts : ∀ s ∈ SOURCE_CODE_EXTENSIONS, '.' ∈ s ∧ '/' ∉ s := by
  decide

theorem isSourceCodePath_iff_mem (p : List Char) :
    isSourceCodePath p = true ↔ fromLastDot p ∈ SOURCE_CODE_EXTENSIONS := by
  simp [isSourceCodePath, List.contains]

/-- **C8**: the filter the batch actually computes (`lastIndexOf('.')` over
the whole path, with the `substring(-1)` quirk) agrees, for the fixed
allow-list, with the spec's final-segment rule: a blob is selected iff the
substring from the last `'.'` of its final segment is in the allow-list; in
particular a path whose final segment has no `'.'` is never selected. -/
theorem isSourceCodePath_iff_specSelects (p : List Char) :
    (isSourceCodePath p = true ↔ specSelects p) ∧
    ('.' ∉ finalSegment p → isSourceCodePath p = false) := by
  have main : isSourceCodePath p = true ↔ specSelects p := by
    by_cases hfs : '.' ∈ finalSegment p
    · have hfs' : '.' ∈ takeNe '/' p.reverse := by
        simpa [finalSegment, List.mem_reverse] using hfs
      have hp : '.' ∈ p := by
        have := mem_of_mem_takeNe '/' '.' p.reverse hfs'
        simpa [List.mem_reverse] using this
      have he : fromLastDot (finalSegment p) = fromLastDot p := by
        rw [fromLastDot_of_mem p hp, fromLastDot_of_mem (finalSegment p) hfs]
        have harg : takeNe '.' ((finalSegment p).reverse) = takeNe '.' p.reverse := by
          rw [show (finalSegment p).reverse = takeNe '/' p.reverse by simp [finalSegment]]
          exact takeNe_takeNe '.' '/' p.reverse hfs'
        rw [harg]
      rw [isSourceCodePath_iff_mem]
      unfold specSelects
      rw [he]
      simp [hfs]
    · rw [isSourceCodePath_iff_mem]
      unfold specSelects
      simp only [hfs, false_and, iff_false]
      by_cases hp : '.' ∈ p
      · have hfs' : '.' ∉ takeNe '/' p.reverse := by
          simpa [finalSegment, List.mem_reverse] using hfs
        have hsl : '/' ∈ takeNe '.' p.reverse :=
          mem_takeNe_of_not_mem_takeNe '.' '/' (by decide) p.reverse
            (by simpa [List.mem_reverse] using hp) hfs'
        intro hmem
        rw [fromLastDot_of_mem p hp] at hmem
        have hno := (sourceExts_facts _ hmem).2
        exact hno (by simp only [List.mem_cons, List.mem_reverse]; exact Or.inr hsl)
      · intro hmem
        rw [fromLastDot_of_not_mem p hp] at hmem
        exact hp (sourceExts_facts _ hmem).1
  refine ⟨main, fun h => ?_⟩
  cases hb : isSourceCodePath p
  · rfl
  · exact absurd (main.mp hb) fun hs => h hs.1

/-! ## Basic facts about the tree builder's raw material -/

theorem jsSplit_ne_nil (sep : Char) : ∀ p : List Char, jsSplit sep p ≠ []
  | [] => by simp [jsSplit]
  | a :: t => by
    have := jsSplit_ne_nil sep t
    unfold jsSplit
    rcases h : jsSplit sep t with _ | ⟨s, rest⟩
    · simp
    · by_cases hs : a = sep <;> simp [hs]

theorem jsJoin_jsSplit (sep : Char) : ∀ p : List Char, jsJoin sep (jsSplit sep p) = p
  | [] => rfl
  | a :: t => by
    have ih := jsJoin_jsSplit sep t
    unfold jsSplit
    rcases h : jsSplit sep t with _ | ⟨s, rest⟩
    · exact absurd h (jsSplit_ne_nil sep t)
    · rw [h] at ih
      by_cases hs : a = sep
    -- a is the separator: a new empty leading segment
      · subst hs
        simp only [if_pos rfl]
        rcases rest with _ | ⟨s2, rest2⟩ <;> simp_all [jsJoin]
      · simp only [if_neg hs]
        rcases rest with _ | ⟨s2, rest2⟩ <;> simp_all [jsJoin]

@[simp] theorem entryCons_chain (nm : List Char) (e : Entry) :
    (entryCons nm e).chain = nm :: e.chain := rfl

@[simp] theorem entryCons_path (nm : List Char) (e : Entry) : (entryCons nm e).path = e.path := rfl

@[simp] theorem entryCons_type (nm : List Char) (e : Entry) : (entryCons nm e).type = e.type := rfl

@[simp] theorem entryCons_sha (nm : List Char) (e : Entry) : (entryCons nm e).sha = e.sha := rfl

@[simp] theorem flatAll_nil : flatAll [] = [] := by simp [flatAll]

theorem flatAll_cons (nm p k cs s ns) :
    flatAll (.mk nm p k cs s :: ns)
      = ⟨[nm], p, k, s⟩ :: ((flatAll cs).map (entryCons nm) ++ flatAll ns) := by
  simp [flatAll]

theorem flatAll_cons' : ∀ (n : TreeNode) (ns : List TreeNode),
    flatAll (n :: ns) = flatAll [n] ++ flatAll ns
  | .mk nm p k cs s, ns => by rw [flatAll_cons, flatAll_cons]; simp

theorem flatAll_append : ∀ ns ms : List TreeNode, flatAll (ns ++ ms) = flatAll ns ++ flatAll ms
  | [], ms => by simp
  | .mk nm p k cs s :: ns, ms => by
    rw [List.cons_append, flatAll_cons, flatAll_cons, flatAll_append ns ms]
    simp

theorem flatAll_eq_flatMap (ns : List TreeNode) :
    flatAll ns = ns.flatMap fun n => flatAll [n] := by
  induction ns with
  | nil => simp
  | cons n ns ih => rw [flatAll_cons' n ns, List.flatMap_cons, ih]

theorem flatAll_chain_ne_nil : ∀ ns : List TreeNode, ∀ e ∈ flatAll ns, e.chain ≠ []
  | [], e, he => absurd he (by simp)
  | .mk nm p k cs s :: ns, e, he => by
    rw [flatAll_cons] at he
    rcases List.mem_cons.mp he with rfl | he
    · simp
    · rcases List.mem_append.mp he with he | he
      · rcases List.mem_map.mp he with ⟨e', _, rfl⟩
        simp
      · exact flatAll_chain_ne_nil ns e he

@[simp] theorem chains_nil : chains [] = [] := by simp [chains]

theorem chains_cons (nm p k cs s ns) :
    chains (.mk nm p k cs s :: ns)
      = [nm] :: ((chains cs).map (nm :: ·) ++ chains ns) := by
  simp only [chains, flatAll_cons, List.map_cons, List.map_append, List.map_map]
  congr 1

theorem chains_append (ns ms : List TreeNode) :
    chains (ns ++ ms) = chains ns ++ chains ms := by
  simp [chains, flatAll_append]

theorem chains_head : ∀ ns : List TreeNode, ∀ c ∈ chains ns,
    ∃ n ∈ ns, ∃ c', c = n.name :: c'
  | [], c, hc => absurd hc (by simp)
  | .mk nm p k cs s :: ns, c, hc => by
    rw [chains_cons] at hc
    rcases List.mem_cons.mp hc with rfl | hc
    · exact ⟨.mk nm p k cs s, by simp, [], by simp⟩
    · rcases List.mem_append.mp hc with hc | hc
      · rcases List.mem_map.mp hc with ⟨c', _, rfl⟩
        exact ⟨.mk nm p k cs s, by simp, c', by simp⟩
      · rcases chains_head ns c hc with ⟨n, hn, c', rfl⟩
        exact ⟨n, by simp [hn], c', rfl⟩

theorem map_singleton_name_sublist : ∀ ns : List TreeNode,
    (ns.map fun n => [n.name]).Sublist (chains ns)
  | [] => by simp
  | .mk nm p k cs s :: ns => by
    rw [chains_cons, List.map_cons]
    exact List.Sublist.cons₂ _ ((map_singleton_name_sublist ns).trans (List.sublist_append_right _ _))

theorem names_nodup_of_chains_nodup (ns : List TreeNode) (h : (chains ns).Nodup) :
    (ns.map TreeNode.name).Nodup := by
  have h1 : (ns.map fun n => [n.name]).Nodup := (map_singleton_name_sublist ns).nodup h
  have h2 : (ns.map fun n => [n.name]) = (ns.map TreeNode.name).map fun nm => [nm] := by
    simp [List.map_map]
  rw [h2] at h1
  exact h1.of_map _

theorem chains_children_nodup (nm p k cs s ns)
    (h : (chains (.mk nm p k cs s :: ns)).Nodup) : (chains cs).Nodup := by
  rw [chains_cons] at h
  have h1 := (List.nodup_cons.mp h).2
  have h2 := h1.sublist (List.sublist_append_left _ _)
  exact h2.of_map _

theorem chains_tail_nodup (n ns) (h : (chains (n :: ns)).Nodup) : (chains ns).Nodup := by
  rcases n with ⟨nm, p, k, cs, s⟩
  rw [chains_cons] at h
  exact (List.nodup_cons.mp h).2.sublist (List.sublist_append_right _ _)

theorem mem_prefixesNE : ∀ parts c, c ∈ prefixesNE parts ↔ c ≠ [] ∧ c <+: parts
  | [], c => by
    simp only [prefixesNE, List.not_mem_nil, false_iff]
    rintro ⟨hne, hpre⟩
    exact hne (List.prefix_nil.mp hpre)
  | s :: rest, c => by
    simp only [prefixesNE, List.mem_cons, List.mem_map]
    constructor
    · rintro (rfl | ⟨c', hc', rfl⟩)
      · exact ⟨by simp, ⟨rest, rfl⟩⟩
      · rcases (mem_prefixesNE rest c').mp hc' with ⟨hne, hpre⟩
        exact ⟨by simp, (List.prefix_cons_inj s).mpr hpre⟩
    · rintro ⟨hne, hpre⟩
      rcases c with _ | ⟨c₀, c'⟩
      · exact absurd rfl hne
      · rcases List.cons_prefix_cons.mp hpre with ⟨rfl, hpre'⟩
        rcases c' with _ | ⟨c₁, c''⟩
        · exact Or.inl rfl
        · exact Or.inr ⟨c₁ :: c'', (mem_prefixesNE rest _).mpr ⟨by simp, hpre'⟩, rfl⟩

theorem prefixesNE_nodup : ∀ parts, (prefixesNE parts).Nodup
  | [] => by simp [prefixesNE]
  | s :: rest => by
    rw [prefixesNE]
    refine List.nodup_cons.mpr ⟨?_, (prefixesNE_nodup rest).map fun a b h => by simpa using h⟩
    rintro hmem
    rcases List.mem_map.mp hmem with ⟨c', hc', he⟩
    have := (mem_prefixesNE rest c').mp hc'
    have : c' = [] := by
      have := congrArg List.tail he
      simpa using this.symm
    simp_all

theorem splitAtName_none (nm : List Char) :
    ∀ ns, splitAtName nm ns = none → ∀ n ∈ ns, n.name ≠ nm
  | [], _, n, hn => absurd hn (by simp)
  | m :: ns, h, n, hn => by
    unfold splitAtName at h
    by_cases hm : m.name = nm
    · simp [hm] at h
    · simp only [hm, if_false] at h
      rcases ho : splitAtName nm ns with _ | x
      · rcases List.mem_cons.mp hn with rfl | hn
        · exact hm
        · exact splitAtName_none nm ns ho n hn
      · rw [ho] at h
        simp at h

theorem splitAtName_some (nm : List Char) :
    ∀ ns pre n post, splitAtName nm ns = some (pre, n, post) →
      ns = pre ++ n :: post ∧ n.name = nm ∧ ∀ m ∈ pre, m.name ≠ nm
  | [], pre, n, post, h => by simp [splitAtName] at h
  | m :: ns, pre, n, post, h => by
    unfold splitAtName at h
    by_cases hm : m.name = nm
    · simp only [hm, if_pos, Option.some.injEq, Prod.mk.injEq] at h
      rcases h with ⟨rfl, rfl, rfl⟩
      exact ⟨by simp, hm, by simp⟩
    · simp only [hm, if_false] at h
      rcases ho : splitAtName nm ns with _ | ⟨⟨pre', n', post'⟩⟩
      · rw [ho] at h
        simp at h
      · rw [ho] at h
        simp only [Option.map_some', Option.some.injEq, Prod.mk.injEq] at h
        rcases h with ⟨h1, rfl, rfl⟩
        subst h1
        rcases splitAtName_some nm ns pre' n' post' ho with ⟨rfl, hn, hpre⟩
        refine ⟨by simp, hn, ?_⟩
        intro m' hm'
        rcases List.mem_cons.mp hm' with rfl | hm'
        · exact hm
        · exact hpre m' hm'

/-! ## How one insertion changes the flattened forest -/

theorem chain_cons_mem_iff (part : List Char) (r : List (List Char)) (pre post : List TreeNode)
    (p : List Char) (k : NodeKind) (cs : List TreeNode) (s : Option (List Char))
    (hpre : ∀ m ∈ pre, m.name ≠ part) (hpost : ∀ m ∈ post, m.name ≠ part) :
    part :: r ∈ chains (pre ++ .mk part p k cs s :: post) ↔ r = [] ∨ r ∈ chains cs := by
  rw [chains_append, chains_cons]
  constructor
  · intro h
    rcases List.mem_append.mp h with h | h
    · rcases chains_head pre _ h with ⟨m, hm, c', he⟩
      simp only [List.cons.injEq] at he
      exact absurd he.1.symm (hpre m hm)
    · rcases List.mem_cons.mp h with he | h
      · left
        simp only [List.cons.injEq] at he
        exact he.2
      · rcases List.mem_append.mp h with h | h
        · rcases List.mem_map.mp h with ⟨c', hc', he⟩
          right
          simp only [List.cons.injEq] at he
          rwa [← he.2]
        · rcases chains_head post _ h with ⟨m, hm, c', he⟩
          simp only [List.cons.injEq] at he
          exact absurd he.1.symm (hpost m hm)
  · rintro (rfl | h)
    · exact List.mem_append.mpr (Or.inr (by simp))
    · exact List.mem_append.mpr (Or.inr (List.mem_cons_of_mem _
        (List.mem_append.mpr (Or.inl (List.mem_map.mpr ⟨r, h, rfl⟩)))))

theorem insertSegs_nil_parts (sha : List Char) (done : List (List Char)) (ns : List TreeNode) :
    insertSegs sha done [] ns = ns := by
  simp [insertSegs]

theorem insertSegs_found (sha : List Char) (done : List (List Char)) (part : List Char)
    (rest : List (List Char)) (ns pre post : List TreeNode) (n : TreeNode)
    (h : splitAtName part ns = some (pre, n, post)) :
    insertSegs sha done (part :: rest) ns
      = pre ++ n.withChildren (insertSegs sha (done ++ [part]) rest n.children) :: post := by
  simp [insertSegs, h]

theorem insertSegs_notFound (sha : List Char) (done : List (List Char)) (part : List Char)
    (rest : List (List Char)) (ns : List TreeNode)
    (h : splitAtName part ns = none) :
    insertSegs sha done (part :: rest) ns
      = ns ++ [TreeNode.mk part (jsJoin '/' (done ++ [part]))
          (if rest = [] then .blob else .tree)
          (insertSegs sha (done ++ [part]) rest [])
          (if rest = [] then some sha else none)] := by
  simp [insertSegs, h]

theorem entryCons_entryFor (sha : List Char) (done : List (List Char)) (part : List Char)
    (rest : List (List Char)) (c' : List (List Char)) :
    entryCons part (entryFor sha (done ++ [part]) rest c')
      = entryFor sha done (part :: rest) (part :: c') := by
  by_cases hc : c' = rest
  · subst hc
    simp [entryCons, entryFor, List.append_assoc]
  · have hne : ¬ part :: c' = part :: rest := by simp [hc]
    simp [entryCons, entryFor, hc, hne, List.append_assoc]

open List in
theorem insertSegs_flatAll (sha : List Char) :
    ∀ (parts done : List (List Char)) (ns : List TreeNode),
    parts ≠ [] →
    parts ∉ chains ns →
    (∀ e ∈ flatAll ns, e.type = .blob → ¬ e.chain <+: parts) →
    (chains ns).Nodup →
    flatAll (insertSegs sha done parts ns) ~ flatAll ns ++ newEntries sha done parts ns
  | [], _, _, hne, _, _, _ => absurd rfl hne
  | part :: rest, done, ns, _, hα, hβ, hnd => by
    rcases hsp : splitAtName part ns with _ | ⟨⟨pre, n, post⟩⟩
    · -- no sibling named `part`: a fresh chain is appended at the end
      have hnone := splitAtName_none part ns hsp
      have hkeep : ((prefixesNE (part :: rest)).filter fun c => decide (c ∉ chains ns))
          = prefixesNE (part :: rest) := by
        rw [List.filter_eq_self]
        intro c hc
        rcases (mem_prefixesNE _ c).mp hc with ⟨hcne, hcpre⟩
        rcases c with _ | ⟨c₀, c'⟩
        · exact absurd rfl hcne
        · rcases List.cons_prefix_cons.mp hcpre with ⟨rfl, _⟩
          simp only [decide_eq_true_eq]
          intro hcc
          rcases chains_head ns _ hcc with ⟨m, hm, c'', he⟩
          simp only [List.cons.injEq] at he
          exact hnone m hm he.1.symm
      rw [insertSegs_notFound sha done part rest ns hsp, flatAll_append]
      by_cases hrest : rest = []
      · subst hrest
        rw [insertSegs_nil_parts, if_pos rfl, if_pos rfl, flatAll_cons]
        unfold newEntries
        rw [hkeep]
        simp [prefixesNE, entryFor]
      · have ih := insertSegs_flatAll sha rest (done ++ [part]) [] hrest (by simp)
          (by simp) (by simp)
        have hsub : newEntries sha (done ++ [part]) rest []
            = (prefixesNE rest).map (entryFor sha (done ++ [part]) rest) := by
          unfold newEntries
          rw [show ((prefixesNE rest).filter fun c => decide (c ∉ chains ([] : List TreeNode)))
              = prefixesNE rest from List.filter_eq_self.mpr (by simp)]
        rw [flatAll_nil, List.nil_append, hsub] at ih
        rw [if_neg hrest, if_neg hrest, flatAll_cons, flatAll_nil, List.append_nil]
        unfold newEntries
        rw [hkeep]
        refine List.Perm.append_left (flatAll ns) ?_
        have hhead : entryFor sha done (part :: rest) [part]
            = ⟨[part], jsJoin '/' (done ++ [part]), .tree, none⟩ := by
          have : ¬ ([part] : List (List Char)) = part :: rest := by
            simp [Ne.symm hrest]
          simp [entryFor, this]
        rw [show prefixesNE (part :: rest) = [part] :: (prefixesNE rest).map (part :: ·)
          from rfl]
        rw [List.map_cons, hhead]
        refine List.Perm.cons _ ?_
        calc (flatAll (insertSegs sha (done ++ [part]) rest [])).map (entryCons part)
            ~ ((prefixesNE rest).map (entryFor sha (done ++ [part]) rest)).map
                (entryCons part) := ih.map _
          _ = (prefixesNE rest).map
                (fun c' => entryCons part (entryFor sha (done ++ [part]) rest c')) := by
              rw [List.map_map]; rfl
          _ = (prefixesNE rest).map
                (fun c' => entryFor sha done (part :: rest) (part :: c')) := by
              exact List.map_congr_left fun c' _ => entryCons_entryFor sha done part rest c'
          _ = ((prefixesNE rest).map (part :: ·)).map (entryFor sha done (part :: rest)) := by
              rw [List.map_map]; rfl
    · -- a sibling named `part` exists: descend into it
      rcases splitAtName_some part ns pre n post hsp with ⟨hns, hname, hpre⟩
      rcases n with ⟨nm, p, k, cs, s⟩
      simp only [TreeNode.name_mk] at hname
      subst hname
      subst hns
      -- the found node's own entry and chain
      have hself : (⟨[nm], p, k, s⟩ : Entry)
          ∈ flatAll (pre ++ TreeNode.mk nm p k cs s :: post) := by
        rw [flatAll_append, flatAll_cons]
        simp
      have hchain : [nm] ∈ chains (pre ++ TreeNode.mk nm p k cs s :: post) := by
        rw [chains_append, chains_cons]
        simp
      -- names of the later siblings also differ from `nm`
      have hpost : ∀ m ∈ post, m.name ≠ nm := by
        have hnames := names_nodup_of_chains_nodup _ hnd
        rw [List.map_append, List.map_cons] at hnames
        have h1 := (List.nodup_append.mp hnames).2.1
        have h2 := (List.nodup_cons.mp h1).1
        simp only [TreeNode.name_mk] at h2
        intro m hm he
        exact h2 (List.mem_map.mpr ⟨m, hm, he⟩)
      -- the found node cannot be a blob
      have hk : k = .tree := by
        rcases k with _ | _
        · rfl
        · have hb := hβ _ hself rfl
          exact absurd (List.cons_prefix_cons.mpr ⟨rfl, List.nil_prefix⟩) hb
      subst hk
      -- `rest` cannot be empty, else `nms` would already be a chain
      have hrest : rest ≠ [] := by
        intro h
        subst h
        exact hα hchain
      -- hypotheses for the recursive call on the children
      have hα' : rest ∉ chains cs := fun h =>
        hα ((chain_cons_mem_iff nm rest pre post p .tree cs s hpre hpost).mpr (Or.inr h))
      have hβ' : ∀ e ∈ flatAll cs, e.type = .blob → ¬ e.chain <+: rest := by
        intro e he hbl hp
        have hmem : entryCons nm e
            ∈ flatAll (pre ++ TreeNode.mk nm p .tree cs s :: post) := by
          rw [flatAll_append, flatAll_cons]
          exact List.mem_append.mpr (Or.inr (List.mem_cons_of_mem _
            (List.mem_append.mpr (Or.inl (List.mem_map_of_mem _ he)))))
        refine hβ _ hmem (by simpa [entryCons] using hbl) ?_
        show (entryCons nm e).chain <+: nm :: rest
        rw [entryCons_chain]
        exact List.cons_prefix_cons.mpr ⟨rfl, hp⟩
      have hnd' : (chains cs).Nodup := by
        have h1 : (chains (TreeNode.mk nm p .tree cs s :: post)).Nodup := by
          rw [chains_append] at hnd
          exact hnd.of_append_right
        exact chains_children_nodup nm p .tree cs s post h1
      have ih := insertSegs_flatAll sha rest (done ++ [nm]) cs hrest hα' hβ' hnd'
      -- unfold the result
      rw [insertSegs_found sha done nm rest _ pre post _ hsp]
      simp only [TreeNode.children_mk, TreeNode.withChildren_mk]
      rw [flatAll_append, flatAll_cons]
      -- rewrite the new entries of the whole sibling list
      have hnew : newEntries sha done (nm :: rest) (pre ++ TreeNode.mk nm p .tree cs s :: post)
          = (newEntries sha (done ++ [nm]) rest cs).map (entryCons nm) := by
        unfold newEntries
        rw [show prefixesNE (nm :: rest) = [nm] :: (prefixesNE rest).map (nm :: ·)
          from rfl]
        rw [List.filter_cons]
        have hdrop : (decide ([nm] ∉ chains (pre ++ TreeNode.mk nm p .tree cs s :: post)))
            = false := by
          simp [hchain]
        rw [hdrop]
        simp only [Bool.false_eq_true, if_false]
        rw [List.filter_map]
        have hcongr : ((prefixesNE rest).filter
              ((fun c => decide (c ∉ chains (pre ++ TreeNode.mk nm p .tree cs s :: post)))
                ∘ (nm :: ·)))
            = (prefixesNE rest).filter fun c => decide (c ∉ chains cs) := by
          refine List.filter_congr fun c hc => ?_
          rcases (mem_prefixesNE _ c).mp hc with ⟨hcne, _⟩
          simp only [Function.comp, decide_eq_decide]
          rw [chain_cons_mem_iff nm c pre post p .tree cs s hpre hpost]
          constructor
          · intro hno hcc
            exact hno (Or.inr hcc)
          · rintro hno (rfl | hcc)
            · exact hcne rfl
            · exact hno hcc
        rw [hcongr, List.map_map, List.map_map]
        exact List.map_congr_left fun c' _ => (entryCons_entryFor sha done nm rest c').symm
      rw [hnew]
      -- now pure permutation bookkeeping
      have hmapped : (flatAll (insertSegs sha (done ++ [nm]) rest cs)).map (entryCons nm)
          ~ (flatAll cs).map (entryCons nm)
            ++ (newEntries sha (done ++ [nm]) rest cs).map (entryCons nm) := by
        have := ih.map (entryCons nm)
        rwa [List.map_append] at this
      calc flatAll pre
            ++ ⟨[nm], p, .tree, s⟩
              :: ((flatAll (insertSegs sha (done ++ [nm]) rest cs)).map (entryCons nm)
                  ++ flatAll post)
          ~ flatAll pre
            ++ ⟨[nm], p, .tree, s⟩
              :: (((flatAll cs).map (entryCons nm)
                    ++ (newEntries sha (done ++ [nm]) rest cs).map (entryCons nm))
                  ++ flatAll post) :=
            List.Perm.append_left _ (List.Perm.cons _ (hmapped.append_right _))
        _ ~ flatAll pre
            ++ ⟨[nm], p, .tree, s⟩
              :: (((flatAll cs).map (entryCons nm) ++ flatAll post)
                  ++ (newEntries sha (done ++ [nm]) rest cs).map (entryCons nm)) := by
            refine List.Perm.append_left _ (List.Perm.cons _ ?_)
            rw [List.append_assoc, List.append_assoc]
            exact List.Perm.append_left _ (List.perm_append_comm)
        _ = (flatAll pre
              ++ ⟨[nm], p, .tree, s⟩ :: ((flatAll cs).map (entryCons nm) ++ flatAll post))
            ++ (newEntries sha (done ++ [nm]) rest cs).map (entryCons nm) := by
            simp [List.append_assoc]
        _ = flatAll (pre ++ TreeNode.mk nm p .tree cs s :: post)
            ++ (newEntries sha (done ++ [nm]) rest cs).map (entryCons nm) := by
            rw [flatAll_append, flatAll_cons]

open List in
theorem insertSegs_chains (sha : List Char) (parts done : List (List Char)) (ns : List TreeNode)
    (h1 : parts ≠ []) (h2 : parts ∉ chains ns)
    (h3 : ∀ e ∈ flatAll ns, e.type = .blob → ¬ e.chain <+: parts)
    (h4 : (chains ns).Nodup) :
    chains (insertSegs sha done parts ns)
      ~ chains ns ++ ((prefixesNE parts).filter fun c => decide (c ∉ chains ns)) := by
  have hm := (insertSegs_flatAll sha parts done ns h1 h2 h3 h4).map Entry.chain
  rw [List.map_append] at hm
  have hne : (newEntries sha done parts ns).map Entry.chain
      = (prefixesNE parts).filter fun c => decide (c ∉ chains ns) := by
    unfold newEntries
    rw [List.map_map]
    have : (Entry.chain ∘ entryFor sha done parts) = fun c => c := by
      funext c
      simp [entryFor]
    rw [this]
    exact List.map_id' _
  rw [hne] at hm
  exact hm

theorem insertSegs_chains_nodup (sha : List Char) (parts done : List (List Char))
    (ns : List TreeNode)
    (h1 : parts ≠ []) (h2 : parts ∉ chains ns)
    (h3 : ∀ e ∈ flatAll ns, e.type = .blob → ¬ e.chain <+: parts)
    (h4 : (chains ns).Nodup) :
    (chains (insertSegs sha done parts ns)).Nodup := by
  refine (insertSegs_chains sha parts done ns h1 h2 h3 h4).symm.nodup ?_
  refine h4.append ((prefixesNE_nodup parts).filter _) ?_
  intro c hc hcf
  have := List.mem_filter.mp hcf
  exact (of_decide_eq_true this.2) hc

theorem leafBlobs_cons (nm p k cs s ns) :
    leafBlobs (.mk nm p k cs s :: ns) ↔ (k = .blob → cs = []) ∧ leafBlobs cs ∧ leafBlobs ns := by
  simp [leafBlobs]

theorem leafBlobs_append : ∀ ns ms : List TreeNode,
    leafBlobs (ns ++ ms) ↔ leafBlobs ns ∧ leafBlobs ms
  | [], ms => by simp [leafBlobs]
  | .mk nm p k cs s :: ns, ms => by
    rw [List.cons_append, leafBlobs_cons, leafBlobs_cons, leafBlobs_append ns ms]
    tauto

theorem insertSegs_leafBlobs (sha : List Char) :
    ∀ (parts done : List (List Char)) (ns : List TreeNode),
    leafBlobs ns →
    (∀ e ∈ flatAll ns, e.type = .blob → ¬ e.chain <+: parts) →
    leafBlobs (insertSegs sha done parts ns)
  | [], done, ns, h, _ => by
    rw [insertSegs_nil_parts]
    exact h
  | part :: rest, done, ns, h, hβ => by
    rcases hsp : splitAtName part ns with _ | ⟨⟨pre, n, post⟩⟩
    · rw [insertSegs_notFound sha done part rest ns hsp]
      rw [leafBlobs_append]
      refine ⟨h, ?_⟩
      by_cases hrest : rest = []
      · subst hrest
        rw [insertSegs_nil_parts]
        simp [leafBlobs]
      · rw [if_neg hrest, if_neg hrest, leafBlobs_cons]
        exact ⟨by simp [hrest], insertSegs_leafBlobs sha rest (done ++ [part]) [] (by
          simp [leafBlobs]) (by simp), by simp [leafBlobs]⟩
    · rcases splitAtName_some part ns pre n post hsp with ⟨hns, hname, hpre⟩
      rcases n with ⟨nm, p, k, cs, s⟩
      simp only [TreeNode.name_mk] at hname
      subst hname
      subst hns
      have hself : (⟨[nm], p, k, s⟩ : Entry)
          ∈ flatAll (pre ++ TreeNode.mk nm p k cs s :: post) := by
        rw [flatAll_append, flatAll_cons]
        simp
      have hk : k = .tree := by
        rcases k with _ | _
        · rfl
        · have hb := hβ _ hself rfl
          exact absurd (List.cons_prefix_cons.mpr ⟨rfl, List.nil_prefix⟩) hb
      subst hk
      rw [insertSegs_found sha done nm rest _ pre post _ hsp]
      rw [leafBlobs_append] at h ⊢
      rcases h with ⟨hpre', h⟩
      rw [leafBlobs_cons] at h
      rcases h with ⟨_, hcs, hpost'⟩
      simp only [TreeNode.children_mk, TreeNode.withChildren_mk]
      refine ⟨hpre', ?_⟩
      rw [leafBlobs_cons]
      refine ⟨by simp, ?_, hpost'⟩
      refine insertSegs_leafBlobs sha rest (done ++ [nm]) cs hcs ?_
      intro e he hbl hp
      have hmem : entryCons nm e
          ∈ flatAll (pre ++ TreeNode.mk nm p .tree cs s :: post) := by
        rw [flatAll_append, flatAll_cons]
        exact List.mem_append.mpr (Or.inr (List.mem_cons_of_mem _
          (List.mem_append.mpr (Or.inl (List.mem_map_of_mem _ he)))))
      refine hβ _ hmem (by simpa [entryCons] using hbl) ?_
      show (entryCons nm e).chain <+: nm :: rest
      rw [entryCons_chain]
      exact List.cons_prefix_cons.mpr ⟨rfl, hp⟩

theorem insertAll_nil (ns : List TreeNode) : insertAll [] ns = ns := rfl

theorem insertAll_cons (f : GitHubFile) (files : List GitHubFile) (ns : List TreeNode) :
    insertAll (f :: files) ns
      = insertAll files (insertSegs f.sha [] (jsSplit '/' f.path) ns) := rfl

theorem buildChildren_eq_insertAll (files : List GitHubFile) :
    buildChildren files = insertAll files [] := rfl

open List in
theorem insertAll_invariant :
    ∀ (files prev : List GitHubFile) (ns : List TreeNode),
    ((prev ++ files).map segsOf).Pairwise NonPrefixPair →
    (chains ns).Nodup →
    (∀ c ∈ chains ns, c ≠ [] ∧ ∃ f ∈ prev, c <+: segsOf f) →
    (∀ f ∈ prev, ∀ c, c ≠ [] → c <+: segsOf f → c ∈ chains ns) →
    (∀ e ∈ flatAll ns, e.path = jsJoin '/' e.chain
        ∧ (e.type = .blob ↔ ∃ f ∈ prev, segsOf f = e.chain)
        ∧ (∀ f ∈ prev, segsOf f = e.chain → e.sha = some f.sha)
        ∧ (e.type = .tree → e.sha = none)) →
    leafBlobs ns →
    (chains (insertAll files ns)).Nodup ∧
    (∀ c ∈ chains (insertAll files ns), c ≠ [] ∧ ∃ f ∈ prev ++ files, c <+: segsOf f) ∧
    (∀ f ∈ prev ++ files, ∀ c, c ≠ [] → c <+: segsOf f → c ∈ chains (insertAll files ns)) ∧
    (∀ e ∈ flatAll (insertAll files ns), e.path = jsJoin '/' e.chain
        ∧ (e.type = .blob ↔ ∃ f ∈ prev ++ files, segsOf f = e.chain)
        ∧ (∀ f ∈ prev ++ files, segsOf f = e.chain → e.sha = some f.sha)
        ∧ (e.type = .tree → e.sha = none)) ∧
    leafBlobs (insertAll files ns)
  | [], prev, ns, hpw, hnd, h3, h4, h5, h6 => by
    rw [insertAll_nil]
    simpa using ⟨hnd, h3, h4, h5, h6⟩
  | f :: files, prev, ns, hpw, hnd, h3, h4, h5, h6 => by
    -- pairing facts from the pairwise hypothesis
    have hpwAssoc : ((prev ++ [f]) ++ files = prev ++ f :: files) := by simp
    have hpair : ∀ f' ∈ prev, NonPrefixPair (segsOf f') (segsOf f) := by
      intro f' hf'
      have h := (List.pairwise_append.mp (by
        rwa [List.map_append] at hpw)).2.2
      exact h _ (List.mem_map_of_mem _ hf') _ (by simp)
    have hne : segsOf f ≠ [] := jsSplit_ne_nil '/' f.path
    have hα : segsOf f ∉ chains ns := by
      intro hin
      rcases (h3 _ hin).2 with ⟨f', hf', hp⟩
      exact (hpair f' hf').2 hp
    have hβ : ∀ e ∈ flatAll ns, e.type = .blob → ¬ e.chain <+: segsOf f := by
      intro e he hbl hp
      rcases ((h5 e he).2.1.mp hbl) with ⟨f', hf', hseq⟩
      exact (hpair f' hf').1 (hseq ▸ hp)
    -- the shape of the forest after inserting `f`
    have hflat := insertSegs_flatAll f.sha (segsOf f) [] ns hne hα hβ hnd
    have hchains := insertSegs_chains f.sha (segsOf f) [] ns hne hα hβ hnd
    have hnd' := insertSegs_chains_nodup f.sha (segsOf f) [] ns hne hα hβ hnd
    have hlb' := insertSegs_leafBlobs f.sha (segsOf f) [] ns h6 hβ
    -- hypotheses of the recursive call, with `f` appended to `prev`
    have h3' : ∀ c ∈ chains (insertSegs f.sha [] (segsOf f) ns),
        c ≠ [] ∧ ∃ f' ∈ prev ++ [f], c <+: segsOf f' := by
      intro c hc
      rcases List.mem_append.mp ((hchains.mem_iff).mp hc) with hc | hc
      · rcases h3 c hc with ⟨hcne, f', hf', hp⟩
        exact ⟨hcne, f', by simp [hf'], hp⟩
      · rcases (mem_prefixesNE _ c).mp (List.mem_of_mem_filter hc) with ⟨hcne, hp⟩
        exact ⟨hcne, f, by simp, hp⟩
    have h4' : ∀ f' ∈ prev ++ [f], ∀ c, c ≠ [] → c <+: segsOf f' →
        c ∈ chains (insertSegs f.sha [] (segsOf f) ns) := by
      intro f' hf' c hcne hp
      rcases List.mem_append.mp hf' with hf' | hf'
      · exact (hchains.mem_iff).mpr (List.mem_append.mpr (Or.inl (h4 f' hf' c hcne hp)))
      · simp only [List.mem_singleton] at hf'
        subst hf'
        by_cases hcc : c ∈ chains ns
        · exact (hchains.mem_iff).mpr (List.mem_append.mpr (Or.inl hcc))
        · exact (hchains.mem_iff).mpr (List.mem_append.mpr (Or.inr (List.mem_filter.mpr
            ⟨(mem_prefixesNE _ c).mpr ⟨hcne, hp⟩, by simpa using hcc⟩)))
    have h5' : ∀ e ∈ flatAll (insertSegs f.sha [] (segsOf f) ns),
        e.path = jsJoin '/' e.chain
        ∧ (e.type = .blob ↔ ∃ f' ∈ prev ++ [f], segsOf f' = e.chain)
        ∧ (∀ f' ∈ prev ++ [f], segsOf f' = e.chain → e.sha = some f'.sha)
        ∧ (e.type = .tree → e.sha = none) := by
      intro e he
      rcases List.mem_append.mp ((hflat.mem_iff).mp he) with he | he
      · -- an entry that was already present
        rcases h5 e he with ⟨hp1, hp2, hp3, hp4⟩
        have hnotf : ¬ segsOf f = e.chain := by
          intro hseq
          have hcm : e.chain ∈ chains ns := List.mem_map_of_mem Entry.chain he
          exact hα (hseq ▸ hcm)
        refine ⟨hp1, ?_, ?_, hp4⟩
        · rw [hp2]
          constructor
          · rintro ⟨f', hf', hseq⟩
            exact ⟨f', by simp [hf'], hseq⟩
          · rintro ⟨f', hf', hseq⟩
            rcases List.mem_append.mp hf' with hf' | hf'
            · exact ⟨f', hf', hseq⟩
            · simp only [List.mem_singleton] at hf'
              subst hf'
              exact absurd hseq hnotf
        · intro f' hf' hseq
          rcases List.mem_append.mp hf' with hf' | hf'
          · exact hp3 f' hf' hseq
          · simp only [List.mem_singleton] at hf'
            subst hf'
            exact absurd hseq hnotf
      · -- a freshly created entry
        unfold newEntries at he
        rcases List.mem_map.mp he with ⟨c, hc, rfl⟩
        have hcmem := List.mem_of_mem_filter hc
        have hcnot : c ∉ chains ns := by
          have := (List.mem_filter.mp hc).2
          simpa using this
        rcases (mem_prefixesNE _ c).mp hcmem with ⟨hcne, hcp⟩
        have hchain_eq : (entryFor f.sha [] (segsOf f) c).chain = c := by
          simp [entryFor]
        have hnotprev : ∀ f' ∈ prev, ¬ segsOf f' = c := by
          intro f' hf' hseq
          refine hcnot (h4 f' hf' c hcne ?_)
          rw [hseq]
        refine ⟨?_, ?_, ?_, ?_⟩
        · simp [entryFor]
        · rw [hchain_eq]
          constructor
          · intro hbl
            have hceq : c = segsOf f := by
              by_contra hcc
              simp [entryFor, hcc] at hbl
            exact ⟨f, by simp, hceq.symm⟩
          · rintro ⟨f', hf', hseq⟩
            rcases List.mem_append.mp hf' with hf'2 | hf'2
            · exact absurd hseq (hnotprev f' hf'2)
            · simp only [List.mem_singleton] at hf'2
              subst hf'2
              simp [entryFor, hseq]
        · rw [hchain_eq]
          intro f' hf' hseq
          rcases List.mem_append.mp hf' with hf'2 | hf'2
          · exact absurd hseq (hnotprev f' hf'2)
          · simp only [List.mem_singleton] at hf'2
            subst hf'2
            simp [entryFor, hseq]
        · intro htr
          have hcc : ¬ c = segsOf f := by
            intro hceq
            simp [entryFor, hceq] at htr
          simp [entryFor, hcc]
    -- recurse
    have ih := insertAll_invariant files (prev ++ [f])
      (insertSegs f.sha [] (segsOf f) ns)
      (by rwa [hpwAssoc]) hnd' h3' h4' h5' hlb'
    rw [insertAll_cons]
    rw [hpwAssoc] at ih
    exact ih

open List in
theorem buildChildren_spec (files : List GitHubFile) (hpf : PrefixFree files) :
    (chains (buildChildren files)).Nodup ∧
    (∀ c ∈ chains (buildChildren files), c ≠ [] ∧ ∃ f ∈ files, c <+: segsOf f) ∧
    (∀ f ∈ files, ∀ c, c ≠ [] → c <+: segsOf f → c ∈ chains (buildChildren files)) ∧
    (∀ e ∈ flatAll (buildChildren files), e.path = jsJoin '/' e.chain
        ∧ (e.type = .blob ↔ ∃ f ∈ files, segsOf f = e.chain)
        ∧ (∀ f ∈ files, segsOf f = e.chain → e.sha = some f.sha)
        ∧ (e.type = .tree → e.sha = none)) ∧
    leafBlobs (buildChildren files) := by
  rw [buildChildren_eq_insertAll]
  have h := insertAll_invariant files [] [] (by simpa [PrefixFree] using hpf)
    (by simp) (by simp) (by simp) (by simp) (by simp [leafBlobs])
  simpa using h

theorem collectFiles_eq_filterMap : ∀ ns : List TreeNode, leafBlobs ns →
    collectFiles ns = (flatAll ns).filterMap
      (fun e => if e.type = .blob then some (⟨e.path, .blob, e.sha.getD []⟩ : GitHubFile)
                else none)
  | [], _ => by simp [collectFiles]
  | .mk nm p k cs s :: ns, h => by
    rw [leafBlobs_cons] at h
    rcases h with ⟨hbl, hcs, hns⟩
    rw [flatAll_cons, List.filterMap_cons]
    rcases k with _ | _
    · -- tree node: its own entry is skipped, children are traversed
      rw [show collectFiles (TreeNode.mk nm p .tree cs s :: ns)
          = collectFiles cs ++ collectFiles ns by simp [collectFiles]]
      simp only [show (NodeKind.tree = NodeKind.blob) = False by simp, if_false]
      rw [List.filterMap_append, List.filterMap_map]
      rw [collectFiles_eq_filterMap cs hcs, collectFiles_eq_filterMap ns hns]
      refine congrArg₂ _ ?_ rfl
      refine List.filterMap_congr fun e _ => ?_
      simp [entryCons]
    · -- blob node: it is collected, and it has no children
      have hcse : cs = [] := hbl rfl
      subst hcse
      rw [show collectFiles (TreeNode.mk nm p .blob [] s :: ns)
          = ⟨p, .blob, s.getD []⟩ :: collectFiles ns by simp [collectFiles]]
      rw [collectFiles_eq_filterMap ns hns]
      simp

theorem sortNode_mk (nm p : List Char) (k : NodeKind) (cs : List TreeNode)
    (s : Option (List Char)) :
    sortNode (.mk nm p k cs s)
      = .mk nm p k (if k = .tree then sortNodes cs else cs) s := by
  rw [sortNode]
  unfold sortNodes
  have hmap : (cs.attach.map fun c => sortNode c.1) = cs.map sortNode := by
    simp
  rw [hmap]

theorem sortNode_name (n : TreeNode) : (sortNode n).name = n.name := by
  rcases n with ⟨nm, p, k, cs, s⟩
  rw [sortNode_mk]
  simp

theorem sortNode_path (n : TreeNode) : (sortNode n).path = n.path := by
  rcases n with ⟨nm, p, k, cs, s⟩
  rw [sortNode_mk]
  simp

theorem sortNode_type (n : TreeNode) : (sortNode n).type = n.type := by
  rcases n with ⟨nm, p, k, cs, s⟩
  rw [sortNode_mk]
  simp

theorem sortNode_sha (n : TreeNode) : (sortNode n).sha = n.sha := by
  rcases n with ⟨nm, p, k, cs, s⟩
  rw [sortNode_mk]
  simp

/-! ## The sibling comparator -/

theorem lexLe_trans : ∀ a b c : List Char, lexLe a b = true → lexLe b c = true →
    lexLe a c = true
  | [], _, _, _, _ => rfl
  | a :: as, [], c, h, _ => by simp [lexLe] at h
  | a :: as, b :: bs, [], _, h2 => by simp [lexLe] at h2
  | a :: as, b :: bs, c :: cs, h1, h2 => by
    by_cases hab : a.toNat < b.toNat
    · by_cases hbc : b.toNat < c.toNat
      · simp [lexLe, show a.toNat < c.toNat by omega]
      · simp only [lexLe, if_neg hbc] at h2
        by_cases hcb : c.toNat < b.toNat
        · simp [hcb] at h2
        · simp [lexLe, show a.toNat < c.toNat by omega]
    · simp only [lexLe, if_neg hab] at h1
      by_cases hba : b.toNat < a.toNat
      · simp [hba] at h1
      · by_cases hbc : b.toNat < c.toNat
        · simp [lexLe, show a.toNat < c.toNat by omega]
        · simp only [lexLe, if_neg hbc] at h2
          by_cases hcb : c.toNat < b.toNat
          · simp [hcb] at h2
          · have hac : ¬ a.toNat < c.toNat := by omega
            have hca : ¬ c.toNat < a.toNat := by omega
            rw [if_neg hba] at h1
            rw [if_neg hcb] at h2
            simp only [lexLe, if_neg hac, if_neg hca]
            exact lexLe_trans as bs cs h1 h2

theorem lexLe_total : ∀ a b : List Char, lexLe a b = true ∨ lexLe b a = true
  | [], _ => Or.inl rfl
  | _ :: _, [] => Or.inr rfl
  | a :: as, b :: bs => by
    by_cases hab : a.toNat < b.toNat
    · exact Or.inl (by simp [lexLe, hab])
    · by_cases hba : b.toNat < a.toNat
      · exact Or.inr (by simp [lexLe, hba])
      · rcases lexLe_total as bs with h | h
        · exact Or.inl (by simp [lexLe, hab, hba, h])
        · exact Or.inr (by simp [lexLe, hab, hba, h])

theorem lexLe_antisymm : ∀ a b : List Char, lexLe a b = true → lexLe b a = true → a = b
  | [], [], _, _ => rfl
  | [], _ :: _, _, h2 => by simp [lexLe] at h2
  | _ :: _, [], h1, _ => by simp [lexLe] at h1
  | a :: as, b :: bs, h1, h2 => by
    by_cases hab : a.toNat < b.toNat
    · simp only [lexLe, if_neg (show ¬ b.toNat < a.toNat by omega), if_pos hab] at h2
      simp at h2
    · by_cases hba : b.toNat < a.toNat
      · simp only [lexLe, if_neg hab] at h1
        simp [hba] at h1
      · have heq : a = b :=
          Char.ofNat_toNat a ▸ Char.ofNat_toNat b ▸ congrArg Char.ofNat (by omega)
        simp only [lexLe, if_neg hab, if_neg hba] at h1
        simp only [lexLe, if_neg hba, if_neg hab] at h2
        rw [heq, lexLe_antisymm as bs h1 h2]

theorem nodeLe_trans (a b c : TreeNode) (h1 : nodeLe a b = true) (h2 : nodeLe b c = true) :
    nodeLe a c = true := by
  rcases ha : a.type <;> rcases hb : b.type <;> rcases hc : c.type <;>
    simp [nodeLe, ha, hb, hc] at h1 h2 ⊢ <;>
    exact lexLe_trans _ _ _ h1 h2

theorem nodeLe_total (a b : TreeNode) : nodeLe a b = true ∨ nodeLe b a = true := by
  rcases ha : a.type <;> rcases hb : b.type <;> simp [nodeLe, ha, hb] <;>
    exact lexLe_total _ _

theorem nodeLe_antisymm_name (a b : TreeNode) (h1 : nodeLe a b = true)
    (h2 : nodeLe b a = true) : a.name = b.name ∧ a.type = b.type := by
  rcases ha : a.type <;> rcases hb : b.type <;> simp [nodeLe, ha, hb] at h1 h2 <;>
    exact ⟨lexLe_antisymm _ _ h1 h2, rfl⟩

instance : IsTrans TreeNode NodeLeP := ⟨fun a b c => nodeLe_trans a b c⟩

instance : IsTotal TreeNode NodeLeP := ⟨fun a b => nodeLe_total a b⟩

theorem claimOrder_of_nodeLe (a b : TreeNode) (h : nodeLe a b = true) : claimOrder a b := by
  rcases ha : a.type <;> rcases hb : b.type <;> simp [nodeLe, ha, hb] at h <;>
    simp [claimOrder, ha, hb] <;> assumption

/-! ## `sortNodes` preserves the flattened forest up to permutation -/

open List in
theorem flatAll_insertionSort (l : List TreeNode) :
    flatAll (List.insertionSort NodeLeP l) ~ flatAll l := by
  rw [flatAll_eq_flatMap, flatAll_eq_flatMap]
  exact (List.perm_insertionSort NodeLeP l).flatMap_right _

theorem sizeOf_pos_forest : ∀ ns : List TreeNode, 1 ≤ sizeOf ns
  | [] => by simp
  | n :: ns => by
    have := List.cons.sizeOf_spec n ns
    omega

theorem sizeOf_children_lt (n : TreeNode) (ns : List TreeNode) (hn : n ∈ ns) :
    sizeOf n.children < sizeOf ns := by
  have h1 := List.sizeOf_lt_of_mem hn
  rcases n with ⟨nm, p, k, cs, s⟩
  simp only [TreeNode.children_mk]
  have h2 := TreeNode.mk.sizeOf_spec nm p k cs s
  omega

open List in
theorem flatAll_sortNodes_aux : ∀ (k : Nat) (ns : List TreeNode), sizeOf ns ≤ k →
    flatAll (sortNodes ns) ~ flatAll ns
  | 0, ns, hk => absurd hk (by have := sizeOf_pos_forest ns; omega)
  | k + 1, ns, hk => by
    rw [sortNodes]
    refine (flatAll_insertionSort (ns.map sortNode)).trans ?_
    rw [flatAll_eq_flatMap, flatAll_eq_flatMap, List.flatMap_map]
    refine Perm.flatMap_left ns fun n hn => ?_
    have hsz : sizeOf n.children ≤ k := by
      have := sizeOf_children_lt n ns hn
      omega
    rcases n with ⟨nm, p, kd, cs, s⟩
    show flatAll [sortNode (TreeNode.mk nm p kd cs s)] ~ flatAll [TreeNode.mk nm p kd cs s]
    rw [sortNode_mk]
    rcases kd with _ | _
    · rw [if_pos rfl, flatAll_cons, flatAll_cons]
      refine Perm.cons _ (Perm.append ?_ (Perm.refl _))
      exact (flatAll_sortNodes_aux k cs (by simpa using hsz)).map _
    · rw [if_neg (by simp)]

open List in
theorem flatAll_sortNodes (ns : List TreeNode) : flatAll (sortNodes ns) ~ flatAll ns :=
  flatAll_sortNodes_aux (sizeOf ns) ns le_rfl

theorem leafBlobs_iff_forall : ∀ ns : List TreeNode,
    leafBlobs ns ↔ ∀ n ∈ ns, (n.type = .blob → n.children = []) ∧ leafBlobs n.children
  | [] => by simp [leafBlobs]
  | .mk nm p k cs s :: ns => by
    rw [leafBlobs_cons, leafBlobs_iff_forall ns]
    constructor
    · rintro ⟨h1, h2, h3⟩ n hn
      rcases List.mem_cons.mp hn with rfl | hn
      · exact ⟨by simpa using h1, by simpa using h2⟩
      · exact h3 n hn
    · intro h
      have hhead := h (TreeNode.mk nm p k cs s) (by simp)
      exact ⟨by simpa using hhead.1, by simpa using hhead.2, fun n hn => h n (by simp [hn])⟩

theorem sortNodes_leafBlobs_aux : ∀ (k : Nat) (ns : List TreeNode), sizeOf ns ≤ k →
    leafBlobs ns → leafBlobs (sortNodes ns)
  | 0, ns, hk, _ => absurd hk (by have := sizeOf_pos_forest ns; omega)
  | k + 1, ns, hk, h => by
    rw [leafBlobs_iff_forall]
    intro m hm
    rw [sortNodes, List.mem_insertionSort] at hm
    rcases List.mem_map.mp hm with ⟨n, hn, rfl⟩
    have hsz : sizeOf n.children ≤ k := by
      have := sizeOf_children_lt n ns hn
      omega
    have hprops := (leafBlobs_iff_forall ns).mp h n hn
    rcases n with ⟨nm, p, kd, cs, s⟩
    rw [sortNode_mk]
    rcases kd with _ | _
    · rw [if_pos rfl]
      refine ⟨by simp, ?_⟩
      simp only [TreeNode.children_mk]
      exact sortNodes_leafBlobs_aux k cs (by simpa using hsz) (by simpa using hprops.2)
    · rw [if_neg (by simp)]
      have hcse : cs = [] := by simpa using hprops.1
      subst hcse
      simp [leafBlobs]

theorem sortNodes_leafBlobs (ns : List TreeNode) (h : leafBlobs ns) :
    leafBlobs (sortNodes ns) :=
  sortNodes_leafBlobs_aux (sizeOf ns) ns le_rfl h

/-! ## C2: the leaves of the built tree are exactly the input files -/

theorem filterMap_guard_eq_map_filter {α β : Type} (p : α → Bool) (h : α → β) :
    ∀ l : List α, (l.filterMap fun a => if p a then some (h a) else none)
      = (l.filter p).map h
  | [] => rfl
  | a :: l => by
    by_cases hp : p a <;>
      simp [List.filterMap_cons, List.filter_cons, hp,
        filterMap_guard_eq_map_filter p h l]

theorem segs_nodup_of_prefixFree (files : List GitHubFile) (hpf : PrefixFree files) :
    (files.map segsOf).Nodup := by
  refine List.Pairwise.imp ?_ hpf
  intro a b hab
  intro he
  exact hab.1 (he ▸ List.prefix_rfl)

open List in
theorem blobEntries_perm (files : List GitHubFile) (hpf : PrefixFree files) :
    ((flatAll (buildChildren files)).filter fun e => decide (e.type = .blob))
      ~ files.map blobEntryOf := by
  rcases buildChildren_spec files hpf with ⟨hnd, hup, hdown, hattr, hlb⟩
  have hndflat : (flatAll (buildChildren files)).Nodup := by
    have : (chains (buildChildren files)).Nodup := hnd
    exact this.of_map _
  refine (perm_ext_iff_of_nodup (hndflat.filter _) ?_).mpr ?_
  · have h1 : ((files.map blobEntryOf).map Entry.chain).Nodup := by
      rw [List.map_map]
      have : (Entry.chain ∘ blobEntryOf) = segsOf := by
        funext f
        simp [blobEntryOf]
      rw [this]
      exact segs_nodup_of_prefixFree files hpf
    exact h1.of_map _
  · intro e
    constructor
    · intro he
      have hmem := List.mem_of_mem_filter he
      have hbl : e.type = .blob := by
        have := (List.mem_filter.mp he).2
        simpa using this
      rcases hattr e hmem with ⟨hpath, hiff, hsha, _⟩
      rcases hiff.mp hbl with ⟨f, hf, hseq⟩
      have hfile : e = blobEntryOf f := by
        rcases e with ⟨ec, ep, ek, es⟩
        simp only at hbl hseq hpath
        subst hbl
        have hp2 : ep = f.path := by
          rw [hpath, ← hseq]
          simp [segsOf, jsJoin_jsSplit]
        have hs2 : es = some f.sha := hsha f hf hseq
        simp [blobEntryOf, hp2, hs2, ← hseq]
      rw [hfile]
      exact List.mem_map_of_mem _ hf
    · intro he
      rcases List.mem_map.mp he with ⟨f, hf, rfl⟩
      have hcm : segsOf f ∈ chains (buildChildren files) :=
        hdown f hf (segsOf f) (jsSplit_ne_nil '/' f.path) List.prefix_rfl
      rcases List.mem_map.mp hcm with ⟨e', he', hchain⟩
      rcases hattr e' he' with ⟨hpath, hiff, hsha, _⟩
      have hbl : e'.type = .blob := hiff.mpr ⟨f, hf, hchain.symm⟩
      have hfile : blobEntryOf f = e' := by
        rcases e' with ⟨ec, ep, ek, es⟩
        simp only at hbl hchain hpath
        subst hbl
        have hp2 : ep = f.path := by
          rw [hpath, hchain]
          simp [segsOf, jsJoin_jsSplit]
        have hs2 : es = some f.sha := hsha f hf hchain.symm
        simp [blobEntryOf, hp2, hs2, hchain]
      rw [hfile]
      exact List.mem_filter.mpr ⟨he', by simpa using hbl⟩

open List in
theorem buildFileTree_collect_perm (files : List GitHubFile) (hpf : PrefixFree files) :
    collectFiles (buildFileTree files)
      ~ files.map fun f => (⟨f.path, .blob, f.sha⟩ : GitHubFile) := by
  rcases buildChildren_spec files hpf with ⟨hnd, hup, hdown, hattr, hlb⟩
  have hlb' : leafBlobs (buildFileTree files) := sortNodes_leafBlobs _ hlb
  rw [collectFiles_eq_filterMap _ hlb']
  have hperm : flatAll (buildFileTree files) ~ flatAll (buildChildren files) :=
    flatAll_sortNodes _
  refine ((hperm.filterMap _).trans ?_)
  have hguard : ∀ l : List Entry,
      (l.filterMap fun e => if e.type = .blob
          then some (⟨e.path, .blob, e.sha.getD []⟩ : GitHubFile) else none)
        = (l.filter fun e => decide (e.type = .blob)).map
            fun e => (⟨e.path, .blob, e.sha.getD []⟩ : GitHubFile) := by
    intro l
    have := filterMap_guard_eq_map_filter (fun e : Entry => decide (e.type = .blob))
      (fun e => (⟨e.path, .blob, e.sha.getD []⟩ : GitHubFile)) l
    rw [← this]
    refine List.filterMap_congr fun e _ => ?_
    by_cases hb : e.type = .blob <;> simp [hb]
  rw [hguard]
  refine ((blobEntries_perm files hpf).map _).trans ?_
  rw [List.map_map]
  refine Perm.of_eq (List.map_congr_left fun f _ => ?_)
  simp [blobEntryOf, Function.comp]

/-- **C2 (amended)**: for prefix-free inputs, the collected blob leaves of
`buildFileTree` are in path-preserving bijection with the input files. -/
theorem buildFileTree_leaf_bijection (files : List GitHubFile) (hpf : PrefixFree files) :
    ((collectFiles (buildFileTree files)).map GitHubFile.path).Perm
      (files.map GitHubFile.path) := by
  have h := (buildFileTree_collect_perm files hpf).map GitHubFile.path
  rw [List.map_map] at h
  refine h.trans (List.Perm.of_eq (List.map_congr_left fun f _ => rfl))

/-! ## C4: sibling ordering after `sortNodes` -/

theorem childLevels_cons (nm p k cs s ns) :
    childLevels (.mk nm p k cs s :: ns) = (cs :: childLevels cs) ++ childLevels ns := by
  simp [childLevels]

theorem childLevels_mem_iff : ∀ (ms : List TreeNode) (lvl : List TreeNode),
    lvl ∈ childLevels ms ↔ ∃ m ∈ ms, lvl = m.children ∨ lvl ∈ childLevels m.children
  | [], lvl => by simp [childLevels]
  | .mk nm p k cs s :: ms, lvl => by
    rw [childLevels_cons]
    simp only [List.mem_append, List.mem_cons, childLevels_mem_iff ms lvl]
    constructor
    · rintro ((h | h) | ⟨m, hm, hh⟩)
      · exact ⟨.mk nm p k cs s, Or.inl rfl, Or.inl (by simpa using h)⟩
      · exact ⟨.mk nm p k cs s, Or.inl rfl, Or.inr (by simpa using h)⟩
      · exact ⟨m, Or.inr hm, hh⟩
    · rintro ⟨m, hm, hh⟩
      rcases hm with rfl | hm
      · rcases hh with hh | hh
        · refine Or.inl (Or.inl ?_)
          rw [hh]
          simp
        · exact Or.inl (Or.inr (by simpa using hh))
      · exact Or.inr ⟨m, hm, hh⟩

theorem sortNodes_levels_sorted_aux : ∀ (k : Nat) (ns : List TreeNode), sizeOf ns ≤ k →
    leafBlobs ns → ∀ lvl ∈ allLevels (sortNodes ns), lvl.Pairwise claimOrder
  | 0, ns, hk, _, _, _ => absurd hk (by have := sizeOf_pos_forest ns; omega)
  | k + 1, ns, hk, hlb, lvl, hlvl => by
    rcases List.mem_cons.mp hlvl with rfl | hlvl
    · have hs : (sortNodes ns).Pairwise NodeLeP := by
        rw [sortNodes]
        exact List.sorted_insertionSort NodeLeP _
      exact hs.imp fun {a b} h => claimOrder_of_nodeLe a b h
    · rcases (childLevels_mem_iff _ lvl).mp hlvl with ⟨m, hm, hh⟩
      rw [sortNodes, List.mem_insertionSort] at hm
      rcases List.mem_map.mp hm with ⟨n, hn, rfl⟩
      have hszc : sizeOf n.children ≤ k := by
        have := sizeOf_children_lt n ns hn
        omega
      have hprops := (leafBlobs_iff_forall ns).mp hlb n hn
      rcases n with ⟨nm, p, kd, cs, s⟩
      rw [sortNode_mk] at hh
      simp only [TreeNode.children_mk] at hszc hprops
      rcases kd with _ | _
      · rw [if_pos rfl] at hh
        simp only [TreeNode.children_mk] at hh
        have hrec := sortNodes_levels_sorted_aux k cs hszc (by simpa using hprops.2)
        rcases hh with rfl | hh
        · exact hrec _ (by simp [allLevels])
        · exact hrec _ (by simp [allLevels, hh])
      · rw [if_neg (by simp)] at hh
        have hcse : cs = [] := by simpa using hprops.1
        subst hcse
        simp only [TreeNode.children_mk] at hh
        rcases hh with rfl | hh
        · simp
        · simp [childLevels] at hh

/-- **C4 (amended)**: for prefix-free inputs, in every sibling sequence of
the built tree every `tree`-kind child precedes every `blob`-kind child and
names are non-decreasing within each kind. -/
theorem buildFileTree_siblings_sorted (files : List GitHubFile) (hpf : PrefixFree files) :
    ∀ lvl ∈ allLevels (buildFileTree files), lvl.Pairwise claimOrder := by
  rcases buildChildren_spec files hpf with ⟨_, _, _, _, hlb⟩
  exact sortNodes_levels_sorted_aux (sizeOf (buildChildren files)) _ le_rfl hlb

/-! ## C3: the sorted tree is determined by the flattened multiset -/

theorem selTop_entryCons (nm : List Char) (e : Entry) (hne : e.chain ≠ []) :
    selTop (entryCons nm e) = none := by
  rcases e with ⟨ec, p, k, s⟩
  rcases ec with _ | ⟨c0, cr⟩
  · simp at hne
  · rfl

theorem filterMap_selTop : ∀ ns : List TreeNode, (flatAll ns).filterMap selTop = ns.map infoOf
  | [] => by simp
  | .mk nm p k cs s :: ns => by
    rw [flatAll_cons, List.filterMap_cons]
    have h0 : selTop ⟨[nm], p, k, s⟩ = some ⟨nm, p, k, s⟩ := rfl
    rw [h0, List.filterMap_append, List.filterMap_map]
    have hsub : (flatAll cs).filterMap (selTop ∘ entryCons nm) = [] := by
      rw [List.filterMap_eq_nil]
      intro e he
      exact selTop_entryCons nm e (flatAll_chain_ne_nil cs e he)
    rw [hsub, List.nil_append, filterMap_selTop ns]
    rfl

theorem selSub_single (nm nm' p k s) : selSub nm (⟨[nm'], p, k, s⟩ : Entry) = none := rfl

theorem selSub_entryCons_self (nm : List Char) (e : Entry) (hne : e.chain ≠ []) :
    selSub nm (entryCons nm e) = some e := by
  rcases e with ⟨ec, p, k, s⟩
  rcases ec with _ | ⟨c0, cr⟩
  · simp at hne
  · simp [selSub, entryCons]

theorem selSub_entryCons_other (nm nm' : List Char) (hne : nm' ≠ nm) (e : Entry)
    (h : e.chain ≠ []) : selSub nm (entryCons nm' e) = none := by
  rcases e with ⟨ec, p, k, s⟩
  rcases ec with _ | ⟨c0, cr⟩
  · simp at h
  · simp [selSub, entryCons, hne]

theorem filterMap_eq_self_of {α : Type} (f : α → Option α) :
    ∀ l : List α, (∀ a ∈ l, f a = some a) → l.filterMap f = l
  | [], _ => rfl
  | a :: l, h => by
    rw [List.filterMap_cons, h a (by simp)]
    rw [filterMap_eq_self_of f l fun a ha => h a (by simp [ha])]

theorem filterMap_selSub_away (nm : List Char) : ∀ ms : List TreeNode,
    (∀ m ∈ ms, m.name ≠ nm) → (flatAll ms).filterMap (selSub nm) = []
  | [], _ => by simp
  | .mk nm' p k cs s :: ms, h => by
    rw [flatAll_cons, List.filterMap_cons]
    have hnm : nm' ≠ nm := by simpa using h (TreeNode.mk nm' p k cs s) (by simp)
    rw [show selSub nm (⟨[nm'], p, k, s⟩ : Entry) = none from rfl]
    rw [List.filterMap_append, List.filterMap_map]
    have hsub : (flatAll cs).filterMap (selSub nm ∘ entryCons nm') = [] := by
      rw [List.filterMap_eq_nil]
      intro e he
      exact selSub_entryCons_other nm nm' hnm e (flatAll_chain_ne_nil cs e he)
    rw [hsub, List.nil_append, filterMap_selSub_away nm ms fun m hm => h m (by simp [hm])]

theorem filterMap_selSub_split (nm p : List Char) (k : NodeKind) (cs : List TreeNode)
    (s : Option (List Char)) (pre post : List TreeNode)
    (hpre : ∀ m ∈ pre, m.name ≠ nm) (hpost : ∀ m ∈ post, m.name ≠ nm) :
    (flatAll (pre ++ .mk nm p k cs s :: post)).filterMap (selSub nm) = flatAll cs := by
  rw [flatAll_append, List.filterMap_append, filterMap_selSub_away nm pre hpre,
    List.nil_append, flatAll_cons, List.filterMap_cons]
  rw [show selSub nm (⟨[nm], p, k, s⟩ : Entry) = none from rfl]
  rw [List.filterMap_append, List.filterMap_map, filterMap_selSub_away nm post hpost,
    List.append_nil]
  refine filterMap_eq_self_of _ _ fun e he => ?_
  exact selSub_entryCons_self nm e (flatAll_chain_ne_nil cs e he)

theorem exists_split_of_mem_nodup (ms : List TreeNode) (m : TreeNode) (hm : m ∈ ms)
    (hnd : (ms.map TreeNode.name).Nodup) :
    ∃ pre post, ms = pre ++ m :: post ∧ (∀ x ∈ pre, x.name ≠ m.name)
      ∧ (∀ x ∈ post, x.name ≠ m.name) := by
  rcases List.append_of_mem hm with ⟨pre, post, rfl⟩
  refine ⟨pre, post, rfl, ?_, ?_⟩
  · rw [List.map_append, List.map_cons] at hnd
    have h1 := (List.nodup_append.mp hnd).2.2
    intro x hx he
    exact h1 (List.mem_map.mpr ⟨x, hx, rfl⟩) (by simp [he])
  · rw [List.map_append, List.map_cons] at hnd
    have h1 := (List.nodup_cons.mp (List.nodup_append.mp hnd).2.1).1
    intro x hx he
    exact h1 (List.mem_map.mpr ⟨x, hx, he⟩)

theorem chains_children_nodup_of_mem (ns : List TreeNode) (n : TreeNode) (hn : n ∈ ns)
    (hnd : (chains ns).Nodup) : (chains n.children).Nodup := by
  rcases List.append_of_mem hn with ⟨pre, post, rfl⟩
  rw [chains_append] at hnd
  have h1 := hnd.of_append_right
  rcases n with ⟨nm, p, k, cs, s⟩
  exact chains_children_nodup nm p k cs s post h1

open List in
theorem sortNodes_eq_aux : ∀ (k : Nat) (ns ms : List TreeNode), sizeOf ns ≤ k →
    flatAll ns ~ flatAll ms → (chains ns).Nodup → leafBlobs ns → leafBlobs ms →
    sortNodes ns = sortNodes ms
  | 0, ns, _, hk, _, _, _, _ => absurd hk (by have := sizeOf_pos_forest ns; omega)
  | k + 1, ns, ms, hk, hperm, hnd, hlbn, hlbm => by
    have hndm : (chains ms).Nodup := (hperm.map Entry.chain).nodup hnd
    have hnamesn : (ns.map TreeNode.name).Nodup := names_nodup_of_chains_nodup ns hnd
    have hnamesm : (ms.map TreeNode.name).Nodup := names_nodup_of_chains_nodup ms hndm
    have corr : ∀ (as bs : List TreeNode), flatAll as ~ flatAll bs →
        (as.map TreeNode.name).Nodup → (bs.map TreeNode.name).Nodup →
        ∀ n ∈ as, ∃ m ∈ bs, infoOf m = infoOf n
          ∧ flatAll m.children ~ flatAll n.children := by
      intro as bs hab hndas hndbs n hn
      have hinfo : as.map infoOf ~ bs.map infoOf := by
        rw [← filterMap_selTop as, ← filterMap_selTop bs]
        exact hab.filterMap selTop
      have hni : infoOf n ∈ bs.map infoOf := hinfo.subset (List.mem_map_of_mem _ hn)
      rcases List.mem_map.mp hni with ⟨m, hm, he⟩
      refine ⟨m, hm, he, ?_⟩
      have hname : m.name = n.name := congrArg TopInfo.name he
      rcases exists_split_of_mem_nodup as n hn hndas with ⟨pre, post, hsp1, hpre, hpost⟩
      rcases exists_split_of_mem_nodup bs m hm hndbs with ⟨pre', post', hsp2, hpre', hpost'⟩
      have h1 : (flatAll as).filterMap (selSub n.name) = flatAll n.children := by
        rw [hsp1]
        rcases n with ⟨nm, p, kd, cs, s⟩
        exact filterMap_selSub_split nm p kd cs s pre post hpre hpost
      have h2 : (flatAll bs).filterMap (selSub n.name) = flatAll m.children := by
        rw [hsp2, ← hname]
        rcases m with ⟨nm', p', kd', cs', s'⟩
        exact filterMap_selSub_split nm' p' kd' cs' s' pre' post' hpre' hpost'
      have h3 := hab.filterMap (selSub n.name)
      rw [h1, h2] at h3
      exact h3.symm
    have heq : ∀ n ∈ ns, ∃ m ∈ ms, sortNode m = sortNode n := by
      intro n hn
      rcases corr ns ms hperm hnamesn hnamesm n hn with ⟨m, hm, hinfo, hflats⟩
      refine ⟨m, hm, ?_⟩
      have hndc : (chains n.children).Nodup := chains_children_nodup_of_mem ns n hn hnd
      have hlbc : leafBlobs n.children := ((leafBlobs_iff_forall ns).mp hlbn n hn).2
      have hlbc' : leafBlobs m.children := ((leafBlobs_iff_forall ms).mp hlbm m hm).2
      have hblobn := ((leafBlobs_iff_forall ns).mp hlbn n hn).1
      have hblobm := ((leafBlobs_iff_forall ms).mp hlbm m hm).1
      have hsz : sizeOf n.children ≤ k := by
        have := sizeOf_children_lt n ns hn
        omega
      rcases n with ⟨nm, p, kd, cs, s⟩
      rcases m with ⟨nm', p', kd', cs', s'⟩
      have h4 : nm' = nm ∧ p' = p ∧ kd' = kd ∧ s' = s := by
        simpa [infoOf, TopInfo.mk.injEq] using hinfo
      simp only [TreeNode.children_mk] at hflats hndc hlbc hlbc' hsz
      simp only [TreeNode.type_mk, TreeNode.children_mk] at hblobn hblobm
      rcases h4 with ⟨rfl, rfl, rfl, rfl⟩
      rw [sortNode_mk, sortNode_mk]
      rcases kd' with _ | _
      · rw [if_pos rfl, if_pos rfl]
        rw [sortNodes_eq_aux k cs cs' hsz hflats.symm hndc hlbc hlbc']
      · rw [if_neg (by simp), if_neg (by simp)]
        rw [hblobn rfl, hblobm rfl]
    have heq' : ∀ m ∈ ms, ∃ n ∈ ns, sortNode n = sortNode m := by
      intro m hm
      rcases corr ms ns hperm.symm hnamesm hnamesn m hm with ⟨n, hn, hinfo, hflats⟩
      refine ⟨n, hn, ?_⟩
      have hndc : (chains n.children).Nodup := chains_children_nodup_of_mem ns n hn hnd
      have hlbc : leafBlobs n.children := ((leafBlobs_iff_forall ns).mp hlbn n hn).2
      have hlbc' : leafBlobs m.children := ((leafBlobs_iff_forall ms).mp hlbm m hm).2
      have hblobn := ((leafBlobs_iff_forall ns).mp hlbn n hn).1
      have hblobm := ((leafBlobs_iff_forall ms).mp hlbm m hm).1
      have hsz : sizeOf n.children ≤ k := by
        have := sizeOf_children_lt n ns hn
        omega
      rcases m with ⟨nm, p, kd, cs, s⟩
      rcases n with ⟨nm', p', kd', cs', s'⟩
      have h4 : nm' = nm ∧ p' = p ∧ kd' = kd ∧ s' = s := by
        simpa [infoOf, TopInfo.mk.injEq] using hinfo
      simp only [TreeNode.children_mk] at hflats hndc hlbc hlbc' hsz
      simp only [TreeNode.type_mk, TreeNode.children_mk] at hblobn hblobm
      rcases h4 with ⟨rfl, rfl, rfl, rfl⟩
      rw [sortNode_mk, sortNode_mk]
      rcases kd' with _ | _
      · rw [if_pos rfl, if_pos rfl]
        rw [sortNodes_eq_aux k cs' cs hsz hflats hndc hlbc hlbc']
      · rw [if_neg (by simp), if_neg (by simp)]
        rw [hblobn rfl, hblobm rfl]
    have hndmap1 : ((ns.map sortNode).map TreeNode.name).Nodup := by
      rw [List.map_map, show (TreeNode.name ∘ sortNode) = TreeNode.name from
        funext sortNode_name]
      exact hnamesn
    have hndmap2 : ((ms.map sortNode).map TreeNode.name).Nodup := by
      rw [List.map_map, show (TreeNode.name ∘ sortNode) = TreeNode.name from
        funext sortNode_name]
      exact hnamesm
    have hmperm : ns.map sortNode ~ ms.map sortNode := by
      refine (perm_ext_iff_of_nodup (hndmap1.of_map _) (hndmap2.of_map _)).mpr ?_
      intro x
      constructor
      · intro hx
        rcases List.mem_map.mp hx with ⟨n, hn, rfl⟩
        rcases heq n hn with ⟨m, hm, hme⟩
        rw [← hme]
        exact List.mem_map_of_mem _ hm
      · intro hx
        rcases List.mem_map.mp hx with ⟨m, hm, rfl⟩
        rcases heq' m hm with ⟨n, hn, hne⟩
        rw [← hne]
        exact List.mem_map_of_mem _ hn
    rw [sortNodes, sortNodes]
    have hs1 : (List.insertionSort NodeLeP (ns.map sortNode)).Pairwise NodeLeP :=
      List.sorted_insertionSort NodeLeP _
    have hs2 : (List.insertionSort NodeLeP (ms.map sortNode)).Pairwise NodeLeP :=
      List.sorted_insertionSort NodeLeP _
    have hp : List.insertionSort NodeLeP (ns.map sortNode)
        ~ List.insertionSort NodeLeP (ms.map sortNode) :=
      (List.perm_insertionSort _ _).trans (hmperm.trans (List.perm_insertionSort _ _).symm)
    refine Perm.eq_of_sorted ?_ hs1 hs2 hp
    intro a b ha hb h1 h2
    have hnames := nodeLe_antisymm_name a b h1 h2
    have ha' : a ∈ ns.map sortNode := (List.mem_insertionSort _).mp ha
    have hb' : b ∈ ms.map sortNode := (List.mem_insertionSort _).mp hb
    have hb'' : b ∈ ns.map sortNode := hmperm.symm.subset hb'
    exact List.inj_on_of_nodup_map hndmap1 ha' hb'' hnames.1

theorem segsOf_inj_of_prefixFree (files : List GitHubFile) (hpf : PrefixFree files)
    {f g : GitHubFile} (hf : f ∈ files) (hg : g ∈ files) (he : segsOf f = segsOf g) :
    f = g :=
  List.inj_on_of_nodup_map (segs_nodup_of_prefixFree files hpf) hf hg he

open List in
theorem flatAll_buildChildren_mono (files files' : List GitHubFile)
    (hp : files ~ files') (hpf : PrefixFree files) (hpf' : PrefixFree files') :
    ∀ e ∈ flatAll (buildChildren files), e ∈ flatAll (buildChildren files') := by
  rcases buildChildren_spec files hpf with ⟨hnd1, hup1, hdown1, hattr1, _⟩
  rcases buildChildren_spec files' hpf' with ⟨hnd2, hup2, hdown2, hattr2, _⟩
  intro e he
  have hcm : e.chain ∈ chains (buildChildren files) := List.mem_map_of_mem Entry.chain he
  rcases hup1 e.chain hcm with ⟨hcne, f, hf, hpre⟩
  have hcm2 : e.chain ∈ chains (buildChildren files') :=
    hdown2 f (hp.subset hf) e.chain hcne hpre
  rcases List.mem_map.mp hcm2 with ⟨e2, he2, hchain⟩
  rcases hattr1 e he with ⟨hpath1, hiff1, hsha1, htr1⟩
  rcases hattr2 e2 he2 with ⟨hpath2, hiff2, hsha2, htr2⟩
  suffices hee : e = e2 by rw [hee]; exact he2
  have hty : e2.type = e.type := by
    rcases hkt : e.type with _ | _
    · rcases hkt2 : e2.type with _ | _
      · rfl
      · exfalso
        rcases hiff2.mp hkt2 with ⟨g, hg, hge⟩
        have : e.type = NodeKind.blob :=
          hiff1.mpr ⟨g, hp.mem_iff.mpr hg, by rw [hge, hchain]⟩
        rw [hkt] at this
        exact NodeKind.noConfusion this
    · rcases hiff1.mp hkt with ⟨g, hg, hge⟩
      exact hiff2.mpr ⟨g, hp.subset hg, by rw [hge, ← hchain]⟩
  have hpe : e2.path = e.path := by rw [hpath1, hpath2, hchain]
  have hse : e2.sha = e.sha := by
    rcases hkt : e.type with _ | _
    · rw [htr1 hkt, htr2 (by rw [hty, hkt])]
    · rcases hiff1.mp hkt with ⟨g, hg, hge⟩
      rw [hsha1 g hg hge, hsha2 g (hp.subset hg) (by rw [hge, ← hchain])]
  calc e = ⟨e.chain, e.path, e.type, e.sha⟩ := rfl
    _ = ⟨e2.chain, e2.path, e2.type, e2.sha⟩ := by rw [hchain, hpe, hty, hse]
    _ = e2 := rfl

open List in
/-- **C3** (amended): `buildFileTree` is order-independent on prefix-free
inputs: permuting a file list whose segment lists are pairwise prefix-free
yields a structurally identical forest. (The unamended claim is refuted by
`buildFileTree_order_cex`: when one path is a segment-prefix of another,
input order changes the result.) -/
theorem buildFileTree_order_independent (files files' : List GitHubFile)
    (hp : files.Perm files') (hpf : PrefixFree files) :
    buildFileTree files = buildFileTree files' := by
  have hsymm : Symmetric NonPrefixPair := fun _ _ h => ⟨h.2, h.1⟩
  have hpf' : PrefixFree files' :=
    ((hp.map segsOf).pairwise_iff (fun hab => hsymm hab)).mp hpf
  rcases buildChildren_spec files hpf with ⟨hnd1, _, _, _, hlb1⟩
  rcases buildChildren_spec files' hpf' with ⟨hnd2, _, _, _, hlb2⟩
  have hmono1 := flatAll_buildChildren_mono files files' hp hpf hpf'
  have hmono2 := flatAll_buildChildren_mono files' files hp.symm hpf' hpf
  have hflat : flatAll (buildChildren files) ~ flatAll (buildChildren files') := by
    refine (perm_ext_iff_of_nodup (hnd1.of_map _) (hnd2.of_map _)).mpr ?_
    exact fun e => ⟨fun h => hmono1 e h, fun h => hmono2 e h⟩
  show sortNodes (buildChildren files) = sortNodes (buildChildren files')
  exact sortNodes_eq_aux (sizeOf (buildChildren files)) _ _ le_rfl hflat hnd1 hlb1 hlb2

/-- The forest `buildChildren` produces for `cexFiles`: inserting `"a/b"`
creates a `tree` node `a`; inserting `"a"` then finds that node and leaves
it unchanged, dropping the second file entirely. -/
theorem buildChildren_cexFiles : buildChildren cexFiles
    = [TreeNode.mk ['a'] ['a'] .tree
        [TreeNode.mk ['b'] ['a', '/', 'b'] .blob [] (some ['1'])] none] := rfl

theorem buildChildren_cexFiles_rev : buildChildren cexFiles.reverse
    = [TreeNode.mk ['a'] ['a'] .blob
        [TreeNode.mk ['b'] ['a', '/', 'b'] .blob [] (some ['1'])] (some ['2'])] := rfl

theorem buildChildren_cexFiles4 : buildChildren cexFiles4
    = [TreeNode.mk ['a'] ['a'] .blob
        [TreeNode.mk ['c'] ['a', '/', 'c'] .blob [] (some ['2']),
         TreeNode.mk ['b'] ['a', '/', 'b'] .blob [] (some ['3'])] (some ['1'])] := rfl

theorem buildFileTree_cexFiles : buildFileTree cexFiles
    = [TreeNode.mk ['a'] ['a'] .tree
        [TreeNode.mk ['b'] ['a', '/', 'b'] .blob [] (some ['1'])] none] := by
  show sortNodes (buildChildren cexFiles) = _
  rw [buildChildren_cexFiles]
  simp [sortNodes, List.insertionSort, List.orderedInsert, sortNode_mk]

theorem buildFileTree_cexFiles_rev : buildFileTree cexFiles.reverse
    = [TreeNode.mk ['a'] ['a'] .blob
        [TreeNode.mk ['b'] ['a', '/', 'b'] .blob [] (some ['1'])] (some ['2'])] := by
  show sortNodes (buildChildren cexFiles.reverse) = _
  rw [buildChildren_cexFiles_rev]
  simp [sortNodes, List.insertionSort, List.orderedInsert, sortNode_mk]

theorem buildFileTree_cexFiles4 : buildFileTree cexFiles4
    = [TreeNode.mk ['a'] ['a'] .blob
        [TreeNode.mk ['c'] ['a', '/', 'c'] .blob [] (some ['2']),
         TreeNode.mk ['b'] ['a', '/', 'b'] .blob [] (some ['3'])] (some ['1'])] := by
  show sortNodes (buildChildren cexFiles4) = _
  rw [buildChildren_cexFiles4]
  simp [sortNodes, List.insertionSort, List.orderedInsert, sortNode_mk]

/-- **C2** (counterexample): `cexFiles` has unique paths, yet the built
forest has one blob leaf where the claim demands two: inserting `"a"` after
`"a/b"` finds the existing `tree` node named `a` and drops the file. -/
theorem buildFileTree_leaf_bijection_cex :
    (cexFiles.map GitHubFile.path).Nodup ∧
    ¬ ((collectFiles (buildFileTree cexFiles)).map GitHubFile.path).Perm
      (cexFiles.map GitHubFile.path) := by
  refine ⟨by decide, fun h => ?_⟩
  have hlen := h.length_eq
  rw [buildFileTree_cexFiles] at hlen
  simp [collectFiles, cexFiles] at hlen

/-- **C2** (witness for the amended theorem at `exFiles`). -/
theorem buildFileTree_leaf_bijection_witness :
    PrefixFree exFiles ∧
    ((collectFiles (buildFileTree exFiles)).map GitHubFile.path).Perm
      (exFiles.map GitHubFile.path) :=
  ⟨by decide, buildFileTree_leaf_bijection exFiles (by decide)⟩

/-- **C3** (counterexample): reversing `cexFiles` changes the result — the
top node is a `tree` in one order and a `blob` in the other — so
`buildFileTree` is not order-independent without a prefix-freeness
hypothesis. -/
theorem buildFileTree_order_cex :
    cexFiles.Perm cexFiles.reverse ∧
    buildFileTree cexFiles ≠ buildFileTree cexFiles.reverse := by
  refine ⟨(List.reverse_perm cexFiles).symm, fun h => ?_⟩
  have htype := congrArg (List.map TreeNode.type) h
  rw [buildFileTree_cexFiles, buildFileTree_cexFiles_rev] at htype
  simp at htype

/-- **C3** (witness for the amended theorem at `exFiles`). -/
theorem buildFileTree_order_independent_witness :
    exFiles.Perm exFiles.reverse ∧ PrefixFree exFiles ∧
    buildFileTree exFiles = buildFileTree exFiles.reverse :=
  ⟨(List.reverse_perm exFiles).symm, by decide,
   buildFileTree_order_independent exFiles exFiles.reverse
     (List.reverse_perm exFiles).symm (by decide)⟩

/-- **C4** (counterexample): in the forest built from `cexFiles4` the blob
node `a` has children `[c, b]` — a sibling list `sortNodes` never sorts,
because it only recurses into `tree`-kind nodes. -/
theorem buildFileTree_siblings_sorted_cex :
    ¬ ∀ lvl ∈ allLevels (buildFileTree cexFiles4), lvl.Pairwise claimOrder := by
  intro h
  have hmem : [TreeNode.mk ['c'] ['a', '/', 'c'] .blob [] (some ['2']),
      TreeNode.mk ['b'] ['a', '/', 'b'] .blob [] (some ['3'])]
      ∈ allLevels (buildFileTree cexFiles4) := by
    rw [buildFileTree_cexFiles4]
    simp [allLevels, childLevels]
  have hlvl := h _ hmem
  rcases List.pairwise_cons.mp hlvl with ⟨hcb, _⟩
  have hco := hcb (TreeNode.mk ['b'] ['a', '/', 'b'] .blob [] (some ['3'])) (by simp)
  rcases hco with ⟨h1, _⟩ | ⟨_, h2⟩
  · simp [claimOrder] at h1
  · simp only [TreeNode.name_mk] at h2
    rw [show lexLe ['c'] ['b'] = false from rfl] at h2
    exact Bool.noConfusion h2

/-- **C4** (witness for the amended theorem at `exFiles`). -/
theorem buildFileTree_siblings_sorted_witness :
    PrefixFree exFiles ∧
    ∀ lvl ∈ allLevels (buildFileTree exFiles), lvl.Pairwise claimOrder :=
  ⟨by decide, buildFileTree_siblings_sorted exFiles (by decide)⟩
